import Mathlib

/-!
Verification of the Markdown chunking engine of the `rag_chatbot` repository
(`src/chunking/chunking.py` and its duplicate `src/chunking_utils.py`).

The Python code is shallowly embedded: Python strings are Lean `String`s
(lists of characters), `str.split()` / `str.strip()` / `" ".join` and the
regular-expression scans used by the code are modelled character by
character, restricted to the ASCII whitespace class `[ \t\n\r\x0b\x0c]`
(the inputs of this code are ASCII Markdown).  The `while` loop of
`split_with_overlap`, which does not terminate for every configuration,
is modelled with explicit fuel: `none` means the loop did not finish.
-/

/-- The ASCII whitespace characters recognised by Python's `str.split()`,
`str.strip()` and the regex class `\s`. -/
def isPySpace (c : Char) : Bool :=
  c = ' ' || c = '\t' || c = '\n' || c = '\r' || c = '\x0b' || c = '\x0c'

/-- Worker for `pySplit`: scans the characters, accumulating the current
word in reverse in `acc`; words are maximal runs of non-whitespace. -/
def pySplitAux : List Char → List Char → List String
  | [], acc => if acc.isEmpty then [] else [⟨acc.reverse⟩]
  | c :: cs, acc =>
    if isPySpace c then
      if acc.isEmpty then pySplitAux cs [] else ⟨acc.reverse⟩ :: pySplitAux cs []
    else
      pySplitAux cs (c :: acc)

/-- Python `text.split()` (no argument): split on runs of whitespace,
dropping empty strings. -/
def pySplit (s : String) : List String := pySplitAux s.data []

/-- Python `sep.join(xs)`. -/
def pyJoin (sep : String) : List String → String
  | [] => ""
  | [x] => x
  | x :: xs => x ++ sep ++ pyJoin sep xs

/-- Python `str.strip()` on a character list: drop whitespace from both ends. -/
def pyStripChars (l : List Char) : List Char :=
  ((l.dropWhile isPySpace).reverse.dropWhile isPySpace).reverse

/-- Python `str.strip()`. -/
def pyStrip (s : String) : String := ⟨pyStripChars s.data⟩

/-- Python list slicing `xs[a:b]` with possibly negative indices. -/
def pySlice (xs : List String) (a b : Int) : List String :=
  let n : Int := xs.length
  let conv : Int → Nat := fun i => if i < 0 then (max 0 (n + i)).toNat else (min i n).toNat
  (xs.take (conv b)).drop (conv a)

/-- The `while start < n` loop of `split_with_overlap`
(src/chunking/chunking.py lines 27-36), with explicit fuel.  State:
`start` (a Python `int`, possibly negative) and the accumulated `chunks`.
`none` means the fuel ran out, i.e. the Python loop had not terminated
after that many iterations. -/
def splitLoop (words : List String) (max_tokens overlap : Nat) :
    Nat → Int → List String → Option (List String)
  | 0, _, _ => none
  | fuel + 1, start, chunks =>
    let n : Int := words.length
    if start < n then
      let e := min (start + max_tokens) n
      let chunk := pyJoin " " (pySlice words start e)
      let chunks' := chunks ++ [chunk]
      if e = n then some chunks'
      else splitLoop words max_tokens overlap fuel (e - overlap) chunks'
    else some chunks

/-- `split_with_overlap(text, max_tokens, overlap)`
(src/chunking/chunking.py lines 20-36).  The loop is given
`words.length + 1` units of fuel, which suffices for every terminating
execution (the loop runs at most `words.length` iterations whenever it
terminates, since `start` strictly increases while non-negative and
below `n`); `none` signals the infinite loop of the Python code. -/
def split_with_overlap (text : String) (max_tokens overlap : Nat) :
    Option (List String) :=
  let words := pySplit text
  if words.length ≤ max_tokens then some [text]
  else splitLoop words max_tokens overlap (words.length + 1) 0 []

/-- A match of the heading regex `^(#{2,6})\s+(.*)` (re.MULTILINE): start
offset, end offset, heading level (number of `#`), raw heading text
(group 2, the characters matched by `.*`). -/
structure HeadMatch where
  mstart : Nat
  mend : Nat
  level : Nat
  txt : List Char
  deriving DecidableEq, Repr

/-- The run of leading `#` characters (candidate for `#{2,6}`). -/
def hmK (l : List Char) : Nat := (l.takeWhile (· = '#')).length

/-- The greedy whitespace run after the hashes (`\s+`; `\s` includes the
newline). -/
def hmWs (l : List Char) : List Char := (l.drop (hmK l)).takeWhile isPySpace

/-- The group-2 text: the rest of the line after the whitespace run
(`.*` without DOTALL). -/
def hmTxt (l : List Char) : List Char :=
  ((l.drop (hmK l)).drop (hmWs l).length).takeWhile (· ≠ '\n')

/-- Attempt of the heading regex at one position (which must be a
line start): 2 to 6 `#` (greedily, so a run of 7 or more `#` never
matches, since every backtracked shorter run is followed by `#`, not
whitespace), then `\s+`, then `.*`.  Returns level, total match length
and the group-2 text. -/
def headingMatch (l : List Char) : Option (Nat × Nat × List Char) :=
  if 2 ≤ hmK l ∧ hmK l ≤ 6 then
    if (hmWs l).length = 0 then none
    else some (hmK l, hmK l + (hmWs l).length + (hmTxt l).length, hmTxt l)
  else none

/-- `re.finditer` for the heading pattern: scan every position; `^` holds
at offset 0 and after a `'\n'`; after a match, scanning resumes at the
match end (`bol` is passed `false` there: the character before the match
end is never a newline, and if the match reaches the end of the string
the flag is irrelevant).  The scan is written with structural fuel: every
step consumes at least one character, so fuel equal to the length of the
string (as supplied by `findMatches`) is never exhausted. -/
def findMatchesAux : Nat → List Char → Nat → Bool → List HeadMatch
  | 0, _, _, _ => []
  | _, [], _, _ => []
  | fuel + 1, c :: rest, pos, bol =>
    if bol then
      match headingMatch (c :: rest) with
      | some (k, len, txt) =>
        ⟨pos, pos + len, k, txt⟩ ::
          findMatchesAux fuel (rest.drop (len - 1)) (pos + len) false
      | none => findMatchesAux fuel rest (pos + 1) (c = '\n')
    else findMatchesAux fuel rest (pos + 1) (c = '\n')

/-- All matches of the heading pattern in the document. -/
def findMatches (l : List Char) : List HeadMatch := findMatchesAux l.length l 0 true

/-- A parsed section record `{heading, level, content}`. -/
structure Sectn where
  heading : String
  level : Nat
  content : String
  deriving DecidableEq, Repr

/-- Build the section list from the match list: for match `i`, the content
is the substring from its end to the start of match `i+1` (or the end of
the document), stripped; the heading is the group-2 text, stripped. -/
def sectionsOf (chars : List Char) : List HeadMatch → List Sectn
  | [] => []
  | m :: rest =>
    let endPos := match rest with
      | m2 :: _ => m2.mstart
      | [] => chars.length
    { heading := ⟨pyStripChars m.txt⟩
      level := m.level
      content := ⟨pyStripChars ((chars.drop m.mend).take (endPos - m.mend))⟩ } ::
      sectionsOf chars rest

/-- `parse_markdown_sections(markdown)` (src/chunking/chunking.py
lines 39-56). -/
def parse_markdown_sections (markdown : String) : List Sectn :=
  sectionsOf markdown.data (findMatches markdown.data)

/-- The index walk of `merge_sections_below_min_tokens`, with structural
fuel.  The Python loop walks the list by index, and when the current
section is short and has a successor it overwrites the successor in place
(new content and `" + "`-joined heading) and drops the current one; the
recursion below replaces the head pair by the merged record, which is
re-examined — exactly as the mutated `sections[i+1]` is re-examined at
index `i+1`.  Each step consumes one list element and one unit of fuel,
so fuel equal to the list length is exactly enough (at fuel 0 the
remaining list is empty). -/
def mergeLoop : Nat → List Sectn → Nat → List Sectn
  | 0, secs, _ => secs
  | _ + 1, [], _ => []
  | _ + 1, [sec], _ => [sec]
  | fuel + 1, sec :: next :: rest, min_tokens =>
    if (pySplit sec.content).length < min_tokens then
      mergeLoop fuel
        ({ heading := sec.heading ++ " + " ++ next.heading
           level := next.level
           content := sec.content ++ "\n\n" ++ next.content } :: rest) min_tokens
    else
      sec :: mergeLoop fuel (next :: rest) min_tokens

/-- `merge_sections_below_min_tokens(sections, min_tokens)`
(src/chunking/chunking.py lines 59-73). -/
def merge_sections_below_min_tokens (sections : List Sectn) (min_tokens : Nat) :
    List Sectn :=
  mergeLoop sections.length sections min_tokens

/-! ## The protected-block regex split

`re.split(r'(```.*?```|\|.*\|(?:\n\|.*\|)+|\n[-*]\s.*(?:\n[-*]\s.*)*)',
content, flags=re.DOTALL)` (src/chunking/chunking.py lines 94-95).
With `re.DOTALL`, `.` matches every character including the newline.
The split scans left to right; at each position the three alternatives
are tried in order, and the backtracking engine commits to the first
complete assignment it finds (greedy `.*` longest-first, lazy `.*?`
shortest-first, greedy `+`/`*` more-repetitions-first). -/

/-- Index of the first occurrence of a triple backtick in `l`
(`none` if there is none): resolves the lazy `.*?` of the fence
alternative. -/
def fenceIdx : List Char → Option Nat
  | [] => none
  | c :: rest =>
    if (c :: rest).take 3 = ['`', '`', '`'] then some 0
    else (fenceIdx rest).map (· + 1)

/-- The fence alternative `` ```.*?``` ``: three backticks, then the
shortest (lazy) span up to the next three backticks.  Returns the match
length. -/
def fenceMatch (l : List Char) : Option Nat :=
  if l.take 3 = ['`', '`', '`'] then (fenceIdx (l.drop 3)).map (fun t => 6 + t)
  else none

/-- Descending list of positions of `'|'` in `l`. -/
def pipeIdxsDesc (l : List Char) : List Nat :=
  ((List.range l.length).filter (fun i => l.getD i ' ' = '|')).reverse

/-- One repetition `\n\|.*\|` of the table alternative: a newline, a
pipe, then (greedy `.*`, with nothing after the final `\|` to satisfy)
everything up to the LAST pipe at index `≥ 2`.  Returns the length
consumed. -/
def tableOneRep (l : List Char) : Option Nat :=
  match l with
  | '\n' :: '|' :: _ => ((pipeIdxsDesc l).find? (fun k => 2 ≤ k)).map (· + 1)
  | _ => none

/-- Greedy `(?:\n\|.*\|)*` with structural fuel: repeat `tableOneRep` as
long as it fires, committing each repetition (the engine never has to
backtrack into a committed repetition, because nothing follows the `+` in
the pattern).  Each repetition consumes at least three characters, so the
fuel supplied by `tableMore` is never exhausted.  Returns the total
length consumed. -/
def tableMoreAux : Nat → List Char → Nat
  | 0, _ => 0
  | fuel + 1, l =>
    match tableOneRep l with
    | none => 0
    | some r => r + tableMoreAux fuel (l.drop r)

/-- Greedy `(?:\n\|.*\|)*` at the end of the table alternative. -/
def tableMore (l : List Char) : Nat := tableMoreAux l.length l

/-- The table alternative `\|.*\|(?:\n\|.*\|)+`: a pipe, then a greedy
`.*` up to a closing pipe chosen as far right as possible such that at
least one `\n\|.*\|` repetition follows, then greedily more
repetitions.  Returns the match length. -/
def tableBranch (l : List Char) : Option Nat :=
  match l with
  | '|' :: _ =>
    ((pipeIdxsDesc l).filter (fun q => 1 ≤ q)).findSome?
      (fun q =>
        match tableOneRep (l.drop (q + 1)) with
        | some r => some (q + 1 + r + tableMore (l.drop (q + 1 + r)))
        | none => none)
  | _ => none

/-- The list alternative `\n[-*]\s.*(?:\n[-*]\s.*)*`: a newline, a `-`
or `*`, a whitespace character — after which the greedy dotall `.*`
swallows the whole remainder of the string (the trailing group then
matches zero repetitions), so a firing list alternative always matches
to the end of the string. -/
def listBranch (l : List Char) : Option Nat :=
  match l with
  | '\n' :: m :: c :: _ =>
    if (m = '-' ∨ m = '*') ∧ isPySpace c then some l.length else none
  | _ => none

/-- Try the three alternatives at one position, in the pattern's order. -/
def tryMatch (l : List Char) : Option Nat :=
  (fenceMatch l).orElse fun _ => (tableBranch l).orElse fun _ => listBranch l

/-- `re.split` with the capturing block pattern: scan left to right;
at a match emit the pending gap and the matched span and resume at the
match end, otherwise move one character forward.  The result interleaves
gaps and matched spans: `[gap0, match1, gap1, ..., gapN]`.  Written with
structural fuel; every step consumes at least one character, so the fuel
supplied by `reSplit` is never exhausted. -/
def reSplitAux : Nat → List Char → List Char → List (List Char)
  | 0, _, buf => [buf.reverse]
  | _ + 1, [], buf => [buf.reverse]
  | fuel + 1, c :: rest, buf =>
    match tryMatch (c :: rest) with
    | some len =>
      buf.reverse :: (c :: rest).take len ::
        reSplitAux fuel (rest.drop (len - 1)) []
    | none => reSplitAux fuel rest (c :: buf)

/-- The `re.split` of the block pattern over a section's content. -/
def reSplit (l : List Char) : List (List Char) := reSplitAux l.length l []

/-! ## The chunk assembler `chunk_markdown` -/

/-- A chunk record `{doc_title, section, chunk_id, content}` (the Python
dict key `section` is a Lean keyword; the field is named `sect`). -/
structure Chunk where
  doc_title : String
  sect : String
  chunk_id : Nat
  content : String
  deriving DecidableEq, Repr

/-- `block.startswith("```") or block.startswith("|") or
block.startswith("-") or block.startswith("*")`
(src/chunking/chunking.py line 102). -/
def isProtectedStart (l : List Char) : Bool :=
  l.take 3 = ['`', '`', '`'] ||
    (match l with
     | c :: _ => c = '|' || c = '-' || c = '*'
     | [] => false)

/-- Emit one chunk per window of a prose block, with consecutive ids
starting at `cid`. -/
def numberChunks (dt hd : String) : Nat → List String → List Chunk
  | _, [] => []
  | cid, s :: ss => ⟨dt, hd, cid, s⟩ :: numberChunks dt hd (cid + 1) ss

/-- The inner `for block in blocks` loop of `chunk_markdown`
(src/chunking/chunking.py lines 97-121): strip the block, skip it if
empty, emit it as a single protected chunk if it starts like a fence,
table row or list item, otherwise window it with `split_with_overlap`
and emit one chunk per window.  Threads the chunk-id counter; `none`
propagates a non-terminating `split_with_overlap`. -/
def chunksOfBlocks (dt hd : String) (max_tokens overlap : Nat) :
    List (List Char) → Nat → Option (List Chunk × Nat)
  | [], cid => some ([], cid)
  | b :: rest, cid =>
    let bs := pyStripChars b
    if bs.isEmpty then chunksOfBlocks dt hd max_tokens overlap rest cid
    else if isProtectedStart bs then
      (chunksOfBlocks dt hd max_tokens overlap rest (cid + 1)).bind fun r =>
        some (⟨dt, hd, cid, ⟨bs⟩⟩ :: r.1, r.2)
    else
      (split_with_overlap ⟨bs⟩ max_tokens overlap).bind fun subs =>
        (chunksOfBlocks dt hd max_tokens overlap rest (cid + subs.length)).bind
          fun r => some (numberChunks dt hd cid subs ++ r.1, r.2)

/-- The outer `for sec in sections` loop of `chunk_markdown`
(src/chunking/chunking.py lines 89-121). -/
def chunksOfSections (dt : String) (max_tokens overlap : Nat) :
    List Sectn → Nat → Option (List Chunk × Nat)
  | [], cid => some ([], cid)
  | sec :: rest, cid =>
    (chunksOfBlocks dt sec.heading max_tokens overlap
        (reSplit sec.content.data) cid).bind fun r1 =>
      (chunksOfSections dt max_tokens overlap rest r1.2).bind fun r2 =>
        some (r1.1 ++ r2.1, r2.2)

/-- Attempt of the title regex `^##\s+(.*)` at a line start: two `#`
followed by at least one whitespace character (`\s` includes the
newline), then the rest of the line. -/
def titleAt (l : List Char) : Option (List Char) :=
  match l with
  | '#' :: '#' :: rest =>
    let ws := rest.takeWhile isPySpace
    if ws.length = 0 then none
    else some ((rest.drop ws.length).takeWhile (· ≠ '\n'))
  | _ => none

/-- `re.search(r'^##\s+(.*)', markdown, re.MULTILINE)`
(src/chunking/chunking.py line 79): first position where `^` holds and
the title pattern matches; returns group 1. -/
def titleSearchAux : List Char → Bool → Option (List Char)
  | [], _ => none
  | c :: rest, bol =>
    if bol then
      match titleAt (c :: rest) with
      | some t => some t
      | none => titleSearchAux rest (c = '\n')
    else titleSearchAux rest (c = '\n')

/-- `chunk_markdown(markdown, max_tokens, overlap, min_tokens)`
(src/chunking/chunking.py lines 76-123).  `none` means the Python call
does not terminate (possible only through `split_with_overlap`). -/
def chunk_markdown (markdown : String) (max_tokens overlap min_tokens : Nat) :
    Option (List Chunk) :=
  let doc_title :=
    match titleSearchAux markdown.data true with
    | some t => pyStrip ⟨t⟩
    | none => "Untitled Document"
  let sections :=
    merge_sections_below_min_tokens (parse_markdown_sections markdown) min_tokens
  (chunksOfSections doc_title max_tokens overlap sections 1).map Prod.fst

/-! ## The duplicate pipeline of `src/chunking_utils.py`

`src/chunking_utils.py` contains a second copy of the same code under
the names `recursive_split`, `parse_markdown_sections`,
`merge_short_sections` and `chunk_markdown`.  It is embedded separately
below (sharing only the models of the Python standard library:
`str.split`, `str.strip`, `" ".join`, list slicing and the `re` engine
for the identical regex literals). -/

namespace ChunkingUtils

/-- The `while start < n` loop of `recursive_split`
(src/chunking_utils.py lines 25-34), with explicit fuel. -/
def recSplitLoop (words : List String) (max_tokens overlap : Nat) :
    Nat → Int → List String → Option (List String)
  | 0, _, _ => none
  | fuel + 1, start, chunks =>
    let n : Int := words.length
    if start < n then
      let e := min (start + max_tokens) n
      let chunk := pyJoin " " (pySlice words start e)
      let chunks' := chunks ++ [chunk]
      if e = n then some chunks'
      else recSplitLoop words max_tokens overlap fuel (e - overlap) chunks'
    else some chunks

/-- `recursive_split(text, max_tokens, overlap)`
(src/chunking_utils.py lines 18-34). -/
def recursive_split (text : String) (max_tokens overlap : Nat) :
    Option (List String) :=
  let words := pySplit text
  if words.length ≤ max_tokens then some [text]
  else recSplitLoop words max_tokens overlap (words.length + 1) 0 []

/-- `parse_markdown_sections(markdown)` (src/chunking_utils.py
lines 36-53). -/
def parse_markdown_sections (markdown : String) : List Sectn :=
  sectionsOf markdown.data (findMatches markdown.data)

/-- The index walk of `merge_short_sections`, with structural fuel
(same shape as `mergeLoop`). -/
def mergeLoopU : Nat → List Sectn → Nat → List Sectn
  | 0, secs, _ => secs
  | _ + 1, [], _ => []
  | _ + 1, [sec], _ => [sec]
  | fuel + 1, sec :: next :: rest, min_tokens =>
    if (pySplit sec.content).length < min_tokens then
      mergeLoopU fuel
        ({ heading := sec.heading ++ " + " ++ next.heading
           level := next.level
           content := sec.content ++ "\n\n" ++ next.content } :: rest) min_tokens
    else
      sec :: mergeLoopU fuel (next :: rest) min_tokens

/-- `merge_short_sections(sections, min_tokens)`
(src/chunking_utils.py lines 55-69). -/
def merge_short_sections (sections : List Sectn) (min_tokens : Nat) :
    List Sectn :=
  mergeLoopU sections.length sections min_tokens

/-- The inner block loop of `chunk_markdown` (src/chunking_utils.py
lines 97-121), calling `recursive_split` on prose blocks. -/
def chunksOfBlocks (dt hd : String) (max_tokens overlap : Nat) :
    List (List Char) → Nat → Option (List Chunk × Nat)
  | [], cid => some ([], cid)
  | b :: rest, cid =>
    let bs := pyStripChars b
    if bs.isEmpty then chunksOfBlocks dt hd max_tokens overlap rest cid
    else if isProtectedStart bs then
      (chunksOfBlocks dt hd max_tokens overlap rest (cid + 1)).bind fun r =>
        some (⟨dt, hd, cid, ⟨bs⟩⟩ :: r.1, r.2)
    else
      (recursive_split ⟨bs⟩ max_tokens overlap).bind fun subs =>
        (chunksOfBlocks dt hd max_tokens overlap rest (cid + subs.length)).bind
          fun r => some (numberChunks dt hd cid subs ++ r.1, r.2)

/-- The outer section loop of `chunk_markdown` (src/chunking_utils.py
lines 89-121). -/
def chunksOfSections (dt : String) (max_tokens overlap : Nat) :
    List Sectn → Nat → Option (List Chunk × Nat)
  | [], cid => some ([], cid)
  | sec :: rest, cid =>
    (chunksOfBlocks dt sec.heading max_tokens overlap
        (reSplit sec.content.data) cid).bind fun r1 =>
      (chunksOfSections dt max_tokens overlap rest r1.2).bind fun r2 =>
        some (r1.1 ++ r2.1, r2.2)

/-- `chunk_markdown(markdown, max_tokens, overlap, min_tokens)`
(src/chunking_utils.py lines 71-123). -/
def chunk_markdown (markdown : String) (max_tokens overlap min_tokens : Nat) :
    Option (List Chunk) :=
  let doc_title :=
    match titleSearchAux markdown.data true with
    | some t => pyStrip ⟨t⟩
    | none => "Untitled Document"
  let sections :=
    merge_short_sections (parse_markdown_sections markdown) min_tokens
  (chunksOfSections doc_title max_tokens overlap sections 1).map Prod.fst

end ChunkingUtils

/-- A well-formed word: nonempty and free of whitespace. -/
def WordOk (w : String) : Prop :=
  w.data ≠ [] ∧ ∀ c ∈ w.data, isPySpace c = false

instance (w : String) : Decidable (WordOk w) := by
  unfold WordOk; infer_instance

/-- The window count `ceil((w - overlap) / (max_tokens - overlap))` of the
specification, for a text of `w` words. -/
def winCount (w max_tokens overlap : Nat) : Nat :=
  ((w - overlap) + (max_tokens - overlap) - 1) / (max_tokens - overlap)

/-- Section `A` of the specification example: ten words. -/
def c1A : Sectn := ⟨"A", 2, pyJoin " " (List.replicate 10 "a")⟩

/-- Section `B` of the specification example: five words. -/
def c1B : Sectn := ⟨"B", 2, pyJoin " " (List.replicate 5 "b")⟩

/-- Section `C` of the specification example: three hundred words. -/
def c1C : Sectn := ⟨"C", 2, pyJoin " " (List.replicate 300 "c")⟩

/-- The heading matches are chained: each starts no earlier than the scan
position, ends after it starts, ends inside the document, and the next
match starts no earlier than this match's end. -/
def Chained (pos bnd : Nat) : List HeadMatch → Prop
  | [] => True
  | m :: rest => pos ≤ m.mstart ∧ m.mstart < m.mend ∧ m.mend ≤ bnd ∧
      Chained m.mend bnd rest

/-- Re-assemble a suffix (starting at absolute offset `pos`) from its
match spans and the gaps between them: preamble gap, first match span,
then recursively the rest from the first match's end.  With the empty
match list the whole suffix is one gap. -/
def tileFrom (l : List Char) (pos : Nat) : List HeadMatch → List Char
  | [] => l
  | m :: rest =>
    l.take (m.mstart - pos) ++
      (l.drop (m.mstart - pos)).take (m.mend - m.mstart) ++
      tileFrom (l.drop (m.mend - pos)) m.mend rest

/-- The gaps between consecutive heading matches (excluding the preamble
before the first match): for each match, the text from its end to the
start of the next match, or to the end of the document for the last. -/
def gapsFrom (l : List Char) (pos : Nat) : List HeadMatch → List (List Char)
  | [] => []
  | m :: rest =>
    (match rest with
     | [] => l.drop (m.mend - pos)
     | m2 :: _ => (l.drop (m.mend - pos)).take (m2.mstart - m.mend)) ::
      gapsFrom (l.drop (m.mend - pos)) m.mend rest

/-- A character that can trigger none of the three block alternatives and
no heading match: not a backtick, pipe, hyphen, asterisk or hash. -/
def proseSafe (c : Char) : Bool :=
  !(c = '`' || c = '|' || c = '-' || c = '*' || c = '#')

/-- `tableOneRep` consumes at least three characters when it fires. -/
theorem tableOneRep_ge (l : List Char) (r : Nat) (h : tableOneRep l = some r) :
    3 ≤ r := by
  unfold tableOneRep at h
  split at h
  · rcases Option.map_eq_some'.1 h with ⟨k, hk, rfl⟩
    have := List.find?_some hk
    simp at this
    omega
  · exact absurd h (by simp)

/-- If every value produced by `f` satisfies `P`, so does the value found
by `List.findSome?`. -/
theorem findSome?_imp {α β : Type} {f : α → Option β} {P : β → Prop}
    (hf : ∀ a b, f a = some b → P b) :
    ∀ (l : List α) (b : β), l.findSome? f = some b → P b := by
  intro l
  induction l with
  | nil => intro b h; simp [List.findSome?_nil] at h
  | cons a l ih =>
    intro b h
    rw [List.findSome?_cons] at h
    cases hfa : f a with
    | some c => rw [hfa] at h; cases h; exact hf a _ hfa
    | none => rw [hfa] at h; exact ih b h

/-- Every match of the block pattern is at least two characters long. -/
theorem tryMatch_ge (l : List Char) (r : Nat) (h : tryMatch l = some r) : 2 ≤ r := by
  unfold tryMatch at h
  rcases (Option.orElse_eq_some' _ _ _).mp h with hf | ⟨-, h2⟩
  · unfold fenceMatch at hf
    split at hf
    · rcases Option.map_eq_some'.1 hf with ⟨k, -, rfl⟩; omega
    · exact absurd hf (by simp)
  · rcases (Option.orElse_eq_some' _ _ _).mp h2 with ht | ⟨-, hl⟩
    · unfold tableBranch at ht
      split at ht
      · exact findSome?_imp (P := fun r => 2 ≤ r)
          (by intro a b hab
              split at hab
              · rename_i r1 hr1
                cases hab
                have := tableOneRep_ge _ _ hr1
                omega
              · exact absurd hab (by simp)) _ r ht
      · exact absurd ht (by simp)
    · unfold listBranch at hl
      split at hl
      · split at hl
        · cases hl; simp
        · exact absurd hl (by simp)
      · exact absurd hl (by simp)

/-! ## Lemmas about `pySplit` and `pyJoin` -/

/-- Every word produced by `pySplitAux` is nonempty, whitespace-free, and
made of characters of the input (or of the pending accumulator). -/
theorem pySplitAux_ok (l : List Char) :
    ∀ acc, (∀ c ∈ acc, isPySpace c = false) →
      ∀ w ∈ pySplitAux l acc,
        WordOk w ∧ ∀ c ∈ w.data, c ∈ l ∨ c ∈ acc := by
  induction l with
  | nil =>
    intro acc hacc w hw
    unfold pySplitAux at hw
    split at hw
    · simp at hw
    · rename_i hne
      simp at hw
      subst hw
      refine ⟨⟨by simpa using hne, ?_⟩, ?_⟩
      · intro c hc; exact hacc c (by simpa using hc)
      · intro c hc; exact Or.inr (by simpa using hc)
  | cons a l ih =>
    intro acc hacc w hw
    unfold pySplitAux at hw
    by_cases hs : isPySpace a
    · rw [if_pos hs] at hw
      split at hw
      · rcases ih [] (by simp) w hw with ⟨hok, hsub⟩
        exact ⟨hok, fun c hc => by
          rcases hsub c hc with h | h
          · exact Or.inl (List.mem_cons_of_mem _ h)
          · simp at h⟩
      · rcases List.mem_cons.mp hw with rfl | hw
        · rename_i hne
          refine ⟨⟨by simpa using hne, ?_⟩, ?_⟩
          · intro c hc; exact hacc c (by simpa using hc)
          · intro c hc; exact Or.inr (by simpa using hc)
        · rcases ih [] (by simp) w hw with ⟨hok, hsub⟩
          exact ⟨hok, fun c hc => by
            rcases hsub c hc with h | h
            · exact Or.inl (List.mem_cons_of_mem _ h)
            · simp at h⟩
    · rw [if_neg hs] at hw
      rcases ih (a :: acc) (by
        intro c hc
        rcases hc with _ | hc
        · simpa using hs
        · exact hacc c (by assumption)) w hw with ⟨hok, hsub⟩
      refine ⟨hok, fun c hc => ?_⟩
      rcases hsub c hc with h | h
      · exact Or.inl (List.mem_cons_of_mem _ h)
      · rcases h with _ | h
        · exact Or.inl (List.mem_cons_self _ _)
        · exact Or.inr (by assumption)

/-- Every word of `pySplit s` is nonempty and whitespace-free. -/
theorem pySplit_wordOk (s : String) : ∀ w ∈ pySplit s, WordOk w :=
  fun w hw => (pySplitAux_ok s.data [] (by simp) w hw).1

/-- The characters of the words of `pySplit s` come from `s`. -/
theorem pySplit_chars (s : String) :
    ∀ w ∈ pySplit s, ∀ c ∈ w.data, c ∈ s.data := by
  intro w hw c hc
  rcases (pySplitAux_ok s.data [] (by simp) w hw).2 c hc with h | h
  · exact h
  · simp at h

/-- Feeding a nonempty whitespace-free word into the scanner just loads it
into the accumulator. -/
theorem pySplitAux_word (wd : List Char) :
    ∀ (rest acc : List Char), (∀ c ∈ wd, isPySpace c = false) →
      pySplitAux (wd ++ rest) acc = pySplitAux rest (wd.reverse ++ acc) := by
  induction wd with
  | nil => intro rest acc _; simp
  | cons a wd ih =>
    intro rest acc h
    have ha : isPySpace a = false := h a (List.mem_cons_self _ _)
    have step : pySplitAux (a :: (wd ++ rest)) acc
        = pySplitAux (wd ++ rest) (a :: acc) := by
      simp only [pySplitAux]
      rw [if_neg (by simp [ha])]
    calc pySplitAux ((a :: wd) ++ rest) acc
        = pySplitAux (wd ++ rest) (a :: acc) := step
      _ = pySplitAux rest (wd.reverse ++ a :: acc) :=
          ih rest (a :: acc) (fun c hc => h c (List.mem_cons_of_mem _ hc))
      _ = pySplitAux rest ((a :: wd).reverse ++ acc) := by congr 1; simp

/-- Round-trip: splitting a single-space join of well-formed words gives
the words back. -/
theorem pySplit_pyJoin (ws : List String) (h : ∀ w ∈ ws, WordOk w) :
    pySplit (pyJoin " " ws) = ws := by
  induction ws with
  | nil => rfl
  | cons w ws ih =>
    rcases hw : ws with - | ⟨w2, ws2⟩
    · have hok := h w (List.mem_cons_self _ _)
      show pySplitAux w.data [] = [w]
      have := pySplitAux_word w.data [] [] hok.2
      simp at this
      rw [this]
      unfold pySplitAux
      rw [if_neg (by simp [hok.1])]
      simp
    · rw [← hw]
      have hws : ws ≠ [] := by rw [hw]; simp
      have hok := h w (List.mem_cons_self _ _)
      have hjoin : pyJoin " " (w :: ws) = w ++ " " ++ pyJoin " " ws := by
        rw [hw]; rfl
      show pySplit _ = _
      rw [hjoin]
      unfold pySplit
      have hdata : (w ++ " " ++ pyJoin " " ws).data
          = w.data ++ ' ' :: (pyJoin " " ws).data := by
        simp [String.data_append]
      rw [hdata, pySplitAux_word w.data _ [] hok.2]
      unfold pySplitAux
      rw [if_pos (by simp [isPySpace])]
      rw [if_neg (by simpa using hok.1)]
      simp
      exact ih (fun w hw => h w (List.mem_cons_of_mem _ hw))

/-! ## Lemmas about `split_with_overlap` -/

/-- Python slicing at in-range natural indices is drop-then-take. -/
theorem pySlice_natCast (xs : List String) (s e : Nat) (hse : s ≤ e)
    (hen : e ≤ xs.length) :
    pySlice xs ↑s ↑e = (xs.drop s).take (e - s) := by
  have hs0 : ¬((s : Int) < 0) := by omega
  have he0 : ¬((e : Int) < 0) := by omega
  simp only [pySlice]
  rw [if_neg he0, if_neg hs0]
  have h1 : (min (e : Int) ((xs.length : Nat) : Int)).toNat = e := by omega
  have h2 : (min (s : Int) ((xs.length : Nat) : Int)).toNat = s := by omega
  rw [h1, h2, List.take_drop, Nat.add_sub_cancel' hse]

/-- In the regime `s + max_tokens ≥ n` and in the regime
`s + max_tokens ≤ n` alike, the emitted slice is `take max_tokens` of the
tail at `s`. -/
theorem windowSlice (ws : List String) (maxT s : Nat) (hs : s < ws.length) :
    (ws.drop s).take (min (s + maxT) ws.length - s)
      = (ws.drop s).take maxT := by
  rcases Nat.le_total (s + maxT) ws.length with h | h
  · rw [Nat.min_eq_left h]; congr 1; omega
  · rw [Nat.min_eq_right h]
    rw [List.take_of_length_le (by simp [List.length_drop])]
    rw [List.take_of_length_le (by simp [List.length_drop]; omega)]

/-- Unfolding `List.range` under a map, one step. -/
theorem range_succ_map {α : Type} (f : ℕ → α) (K : ℕ) :
    (List.range (K + 1)).map f = f 0 :: (List.range K).map (fun k => f (k + 1)) := by
  rw [List.range_succ_eq_map, List.map_cons, List.map_map]
  rfl

/-- Closed form of the window loop: starting at a reachable offset `s`
(`s + overlap < n` holds at the initial offset `0` and is preserved), with
enough fuel, the loop emits one window per index `k`, the window at `k`
being the `max_tokens` words from offset `s + k * (max_tokens - overlap)`
joined by single spaces. -/
theorem splitLoop_closed (ws : List String) (maxT ov : Nat) (hov : ov < maxT) :
    ∀ fuel s acc, s + ov < ws.length → ws.length - s ≤ fuel →
      splitLoop ws maxT ov fuel ↑s acc =
        some (acc ++ (List.range (winCount (ws.length - s) maxT ov)).map
          (fun k => pyJoin " " ((ws.drop (s + k * (maxT - ov))).take maxT))) := by
  intro fuel
  induction fuel with
  | zero => intro s acc hs hfuel; omega
  | succ m ih =>
    intro s acc hs hfuel
    have hsn : s < ws.length := by omega
    have hlt : (↑s : Int) < (↑(ws.length) : Int) := by exact_mod_cast hsn
    have hmin : min ((s : Int) + (maxT : Nat)) (ws.length : Nat)
        = ((min (s + maxT) ws.length : Nat) : Int) := by
      push_cast; omega
    have hslice : pySlice ws ↑s ↑(min (s + maxT) ws.length)
        = (ws.drop s).take maxT := by
      rw [pySlice_natCast ws s _ (by omega) (by omega), windowSlice ws maxT s hsn]
    by_cases hend : ws.length ≤ s + maxT
    · -- final window: `end == n`, the loop stops after this emission
      have he : min (s + maxT) ws.length = ws.length := Nat.min_eq_right hend
      have hK : winCount (ws.length - s) maxT ov = 1 := by
        unfold winCount
        exact Nat.div_eq_of_lt_le (by omega) (by omega)
      have hslice2 : pySlice ws ↑s ↑ws.length = (ws.drop s).take maxT := by
        rw [← he]; exact hslice
      have hfin : splitLoop ws maxT ov (m + 1) ↑s acc =
          some (acc ++ [pyJoin " " ((ws.drop s).take maxT)]) := by
        simp only [splitLoop]
        rw [if_pos hlt, hmin, he, if_pos rfl, hslice2]
      have hmap : (List.range 1).map
          (fun k => pyJoin " " ((ws.drop (s + k * (maxT - ov))).take maxT))
          = [pyJoin " " ((ws.drop s).take maxT)] := by
        rw [range_succ_map]
        norm_num
      rw [hfin, hK, hmap]
    · -- the loop continues at `s + (max_tokens - overlap)`
      push_neg at hend
      have he : min (s + maxT) ws.length = s + maxT := Nat.min_eq_left (by omega)
      have hne : ¬(((s + maxT : Nat) : Int) = ((ws.length : Nat) : Int)) := by
        exact_mod_cast by omega
      have hstep : ((s + maxT : Nat) : Int) - (ov : Nat)
          = ((s + (maxT - ov) : Nat) : Int) := by push_cast; omega
      have hslice2 : pySlice ws ↑s ↑(s + maxT) = (ws.drop s).take maxT := by
        rw [← he]; exact hslice
      have hrec : splitLoop ws maxT ov (m + 1) ↑s acc =
          splitLoop ws maxT ov m ↑(s + (maxT - ov))
            (acc ++ [pyJoin " " ((ws.drop s).take maxT)]) := by
        simp only [splitLoop]
        rw [if_pos hlt, hmin, he, if_neg hne, hslice2, hstep]
      rw [hrec, ih (s + (maxT - ov)) _ (by omega) (by omega)]
      have hKsucc : winCount (ws.length - s) maxT ov
          = winCount (ws.length - (s + (maxT - ov))) maxT ov + 1 := by
        unfold winCount
        have harith : ws.length - s - ov + (maxT - ov) - 1
            = (ws.length - (s + (maxT - ov)) - ov + (maxT - ov) - 1)
              + (maxT - ov) := by omega
        rw [harith, Nat.add_div_right _ (by omega : 0 < maxT - ov)]
      rw [hKsucc, range_succ_map]
      congr 1
      rw [List.append_assoc, List.singleton_append]
      congr 1
      congr 1
      · norm_num
      · apply List.map_congr_left
        intro k hk
        have harg : s + (maxT - ov) + k * (maxT - ov)
            = s + (k + 1) * (maxT - ov) := by ring
        simp only [harg]

/-- Closed form of `split_with_overlap` in the windowing regime. -/
theorem split_with_overlap_closed (text : String) (maxT ov : Nat)
    (hn : maxT < (pySplit text).length) (hov : ov < maxT) :
    split_with_overlap text maxT ov =
      some ((List.range (winCount (pySplit text).length maxT ov)).map
        (fun k => pyJoin " " (((pySplit text).drop (k * (maxT - ov))).take maxT))) := by
  unfold split_with_overlap
  rw [if_neg (by omega)]
  have h := splitLoop_closed (pySplit text) maxT ov hov
    ((pySplit text).length + 1) 0 [] (by omega) (by omega)
  push_cast at h
  rw [h]
  norm_num

/-- With a valid configuration the splitter always terminates. -/
theorem split_with_overlap_total (text : String) (maxT ov : Nat)
    (hov : ov < maxT) :
    ∃ r, split_with_overlap text maxT ov = some r := by
  by_cases hn : (pySplit text).length ≤ maxT
  · exact ⟨[text], by unfold split_with_overlap; rw [if_pos hn]⟩
  · exact ⟨_, split_with_overlap_closed text maxT ov (by omega) hov⟩

/-- A single-space join of at least one well-formed word is nonempty. -/
theorem pyJoin_ne_nil (l : List String) (hne : l ≠ []) (hok : ∀ w ∈ l, WordOk w) :
    (pyJoin " " l).data ≠ [] := by
  cases l with
  | nil => simp at hne
  | cons w rest =>
    cases rest with
    | nil => exact (hok w (List.mem_cons_self _ _)).1
    | cons w2 r2 =>
      show (w ++ " " ++ pyJoin " " (w2 :: r2)).data ≠ []
      simp [String.data_append]

/-- Every window index addresses a word strictly inside the text. -/
theorem winCount_mul_lt (n maxT ov k : Nat) (hov : ov < maxT) (hn : maxT < n)
    (hk : k < winCount n maxT ov) : k * (maxT - ov) < n - ov := by
  have h1 : (k + 1) * (maxT - ov) ≤ winCount n maxT ov * (maxT - ov) :=
    Nat.mul_le_mul_right _ hk
  have h2 : winCount n maxT ov * (maxT - ov) ≤ (n - ov) + (maxT - ov) - 1 := by
    unfold winCount
    exact Nat.div_mul_le_self _ _
  have h3 : (k + 1) * (maxT - ov) = k * (maxT - ov) + (maxT - ov) := by ring
  have h4 : k * (maxT - ov) + (maxT - ov) ≤ (n - ov) + (maxT - ov) - 1 :=
    h3 ▸ le_trans h1 h2
  omega

/-- All words of a take/drop slice of `pySplit text` are well-formed. -/
theorem slice_wordOk (text : String) (a b : Nat) :
    ∀ w ∈ ((pySplit text).drop a).take b, WordOk w := by
  intro w hw
  exact pySplit_wordOk text w (List.mem_of_mem_drop (List.mem_of_mem_take hw))

/-- Every chunk returned by a successful `split_with_overlap` call with a
valid configuration has at most `max_tokens` whitespace words, and is the
original text or (being a re-joined window) nonempty. -/
theorem split_with_overlap_ok (text : String) (maxT ov : Nat) (hov : ov < maxT)
    (subs : List String) (h : split_with_overlap text maxT ov = some subs) :
    ∀ c ∈ subs, (pySplit c).length ≤ maxT ∧ (c = text ∨ c.data ≠ []) := by
  by_cases hn : (pySplit text).length ≤ maxT
  · unfold split_with_overlap at h
    rw [if_pos hn] at h
    cases h
    intro c hc
    rcases List.mem_singleton.mp hc with rfl
    exact ⟨hn, Or.inl rfl⟩
  · push_neg at hn
    rw [split_with_overlap_closed text maxT ov hn hov] at h
    cases h
    intro c hc
    rcases List.mem_map.mp hc with ⟨k, hk, rfl⟩
    have hkK : k < winCount (pySplit text).length maxT ov := List.mem_range.mp hk
    have hklt : k * (maxT - ov) < (pySplit text).length - ov :=
      winCount_mul_lt _ maxT ov k hov hn hkK
    have hok := slice_wordOk text (k * (maxT - ov)) maxT
    have hround : pySplit (pyJoin " "
        (((pySplit text).drop (k * (maxT - ov))).take maxT))
        = ((pySplit text).drop (k * (maxT - ov))).take maxT :=
      pySplit_pyJoin _ hok
    constructor
    · rw [hround, List.length_take]
      exact Nat.min_le_left _ _
    · refine Or.inr (pyJoin_ne_nil _ ?_ hok)
      have hlen : (((pySplit text).drop (k * (maxT - ov))).take maxT).length
          = min maxT ((pySplit text).length - k * (maxT - ov)) := by
        simp [List.length_take, List.length_drop]
      intro hnil
      rw [hnil] at hlen
      simp at hlen
      omega

/-- Reconstruction: the first window's words followed by each later
window's words beyond the first `overlap` ones give back the word list of
the text. -/
theorem split_reconstruct (text : String) (maxT ov : Nat) (hov : ov < maxT)
    (hn : maxT < (pySplit text).length) :
    ∀ j ≤ winCount (pySplit text).length maxT ov - 1,
      ((pySplit text).take maxT ++
        ((List.range j).map (fun k =>
          (((pySplit text).drop ((k + 1) * (maxT - ov))).take maxT).drop ov)).flatten)
        = (pySplit text).take (maxT + j * (maxT - ov)) := by
  intro j hj
  induction j with
  | zero => simp
  | succ i ih =>
    have hi : i ≤ winCount (pySplit text).length maxT ov - 1 := by omega
    rw [List.range_succ, List.map_append, List.flatten_append,
      ← List.append_assoc, ih hi]
    simp only [List.map_cons, List.map_nil, List.flatten_cons, List.flatten_nil,
      List.append_nil]
    have hdt : (((pySplit text).drop ((i + 1) * (maxT - ov))).take maxT).drop ov
        = ((pySplit text).drop (maxT + i * (maxT - ov))).take (maxT - ov) := by
      rw [List.drop_take, List.drop_drop]
      congr 2
      have hx : (i + 1) * (maxT - ov) = i * (maxT - ov) + (maxT - ov) := by ring
      omega
    rw [hdt, ← List.take_add]
    congr 1
    ring

/-- Ceiling division recovers at least the numerator:
`m ≤ ceil(m / step) * step`. -/
theorem ceil_mul_ge (m step : Nat) (hstep : 0 < step) :
    m ≤ ((m + step - 1) / step) * step := by
  have hmod := Nat.div_add_mod (m + step - 1) step
  have hr : (m + step - 1) % step < step := Nat.mod_lt _ hstep
  have hcomm : step * ((m + step - 1) / step)
      = ((m + step - 1) / step) * step := by ring
  omega

/-- The final window reaches the last word:
`n ≤ max_tokens + (K - 1) * (max_tokens - overlap)`. -/
theorem winCount_last (n maxT ov : Nat) (hov : ov < maxT) (hn : maxT < n) :
    n ≤ maxT + (winCount n maxT ov - 1) * (maxT - ov) := by
  have hstep : 0 < maxT - ov := by omega
  have hge := ceil_mul_ge (n - ov) (maxT - ov) hstep
  have hK1 : 1 ≤ winCount n maxT ov := by
    unfold winCount
    rw [Nat.le_div_iff_mul_le hstep]
    omega
  obtain ⟨p, hp⟩ : ∃ p, winCount n maxT ov = p + 1 :=
    ⟨winCount n maxT ov - 1, by omega⟩
  have hbr : (p + 1) * (maxT - ov) = p * (maxT - ov) + (maxT - ov) := by ring
  have hge2 : n - ov ≤ (p + 1) * (maxT - ov) := by
    unfold winCount at hp
    rw [← hp]; exact hge
  have hgoal : winCount n maxT ov - 1 = p := by omega
  rw [hgoal]
  omega

/-! ## Lemmas about the short-section merger -/

/-- The merge walk of a nonempty section list yields a nonempty list. -/
theorem mergeLoop_ne_nil :
    ∀ (fuel : Nat) (secs : List Sectn) (mt : Nat), secs ≠ [] →
      mergeLoop fuel secs mt ≠ [] := by
  intro fuel
  induction fuel with
  | zero => intro secs mt h; exact h
  | succ m ih =>
    intro secs mt h
    match secs with
    | [] => exact absurd rfl h
    | [sec] => simp [mergeLoop]
    | sec :: next :: rest =>
      rw [mergeLoop]
      split
      · exact ih _ mt (by simp)
      · simp

/-- Merging a nonempty section list yields a nonempty list. -/
theorem merge_ne_nil (secs : List Sectn) (mt : Nat) (h : secs ≠ []) :
    merge_sections_below_min_tokens secs mt ≠ [] :=
  mergeLoop_ne_nil secs.length secs mt h

/-- After the merge walk (with enough fuel), every section except
possibly the last one has at least `min_tokens` words. -/
theorem mergeLoop_dropLast_ge :
    ∀ (fuel : Nat) (secs : List Sectn) (mt : Nat), secs.length ≤ fuel →
      ∀ s ∈ (mergeLoop fuel secs mt).dropLast, mt ≤ (pySplit s.content).length := by
  intro fuel
  induction fuel with
  | zero =>
    intro secs mt hlen s hs
    match secs, hlen, hs with
    | [], _, hs => simp [mergeLoop] at hs
  | succ m ih =>
    intro secs mt hlen s hs
    match secs, hlen, hs with
    | [], _, hs => simp [mergeLoop] at hs
    | [sec], _, hs => simp [mergeLoop] at hs
    | sec :: next :: rest, hlen, hs =>
      rw [mergeLoop] at hs
      split at hs
      · exact ih _ mt (by simp at hlen ⊢; omega) s hs
      · rw [List.dropLast_cons_of_ne_nil (mergeLoop_ne_nil _ _ _ (by simp))] at hs
        rcases List.mem_cons.mp hs with rfl | hs
        · rename_i hshort; omega
        · exact ih _ mt (by simp at hlen ⊢; omega) s hs

/-- After the merge pass, every section except possibly the last one has at
least `min_tokens` words. -/
theorem merge_dropLast_ge (secs : List Sectn) (mt : Nat) :
    ∀ s ∈ (merge_sections_below_min_tokens secs mt).dropLast,
      mt ≤ (pySplit s.content).length :=
  mergeLoop_dropLast_ge secs.length secs mt (le_refl _)

/-! ## Lemmas about the chunk assembler -/

/-- `numberChunks` assigns the consecutive ids `cid, cid+1, ...`. -/
theorem numberChunks_ids (dt hd : String) :
    ∀ (subs : List String) (cid : Nat),
      (numberChunks dt hd cid subs).map Chunk.chunk_id
        = List.range' cid subs.length ∧
      (numberChunks dt hd cid subs).length = subs.length := by
  intro subs
  induction subs with
  | nil => intro cid; simp [numberChunks]
  | cons s ss ih =>
    intro cid
    rcases ih (cid + 1) with ⟨h1, h2⟩
    refine ⟨?_, by simp [numberChunks, h2]⟩
    simp [numberChunks, List.range'_succ, h1, h2]

/-- The contents of `numberChunks` are the window strings. -/
theorem numberChunks_content (dt hd : String) :
    ∀ (subs : List String) (cid : Nat) (c : Chunk),
      c ∈ numberChunks dt hd cid subs → c.content ∈ subs := by
  intro subs
  induction subs with
  | nil => intro cid c hc; simp [numberChunks] at hc
  | cons s ss ih =>
    intro cid c hc
    rcases List.mem_cons.mp hc with rfl | hc
    · exact List.mem_cons_self _ _
    · exact List.mem_cons_of_mem _ (ih (cid + 1) c hc)

/-- Appending two consecutive id ranges. -/
theorem range'_append_len (s m n : Nat) :
    List.range' s m ++ List.range' (s + m) n = List.range' s (m + n) := by
  have := List.range'_append s m n 1
  rw [Nat.one_mul] at this
  rw [this, Nat.add_comm]

/-- The block loop emits ids `cid, cid+1, ...` and returns the counter
advanced by the number of emitted chunks. -/
theorem chunksOfBlocks_ids (dt hd : String) (maxT ov : Nat) :
    ∀ (blocks : List (List Char)) (cid : Nat) (cs : List Chunk) (cid' : Nat),
      chunksOfBlocks dt hd maxT ov blocks cid = some (cs, cid') →
      cs.map Chunk.chunk_id = List.range' cid cs.length ∧
        cid' = cid + cs.length := by
  intro blocks
  induction blocks with
  | nil =>
    intro cid cs cid' h
    cases h
    simp
  | cons b rest ih =>
    intro cid cs cid' h
    rw [chunksOfBlocks] at h
    split at h
    · rcases ih cid cs cid' h with ⟨h1, h2⟩; exact ⟨h1, h2⟩
    · split at h
      · -- protected block
        rcases Option.bind_eq_some.mp h with ⟨⟨cs1, cid1⟩, hout, heq⟩
        cases heq
        rcases ih (cid + 1) cs1 cid1 hout with ⟨h1, h2⟩
        constructor
        · simp only [List.map_cons, h1, List.length_cons]
          rw [List.range'_succ]
        · simp; omega
      · -- prose block
        rcases Option.bind_eq_some.mp h with ⟨subs, hsubs, h3⟩
        rcases Option.bind_eq_some.mp h3 with ⟨⟨cs1, cid1⟩, hout, heq⟩
        cases heq
        rcases ih (cid + subs.length) cs1 cid1 hout with ⟨h1, h2⟩
        rcases numberChunks_ids dt hd subs cid with ⟨hn1, hn2⟩
        constructor
        · rw [List.map_append, h1, hn1, range'_append_len,
            List.length_append, hn2]
        · simp [hn2]; omega

/-- The section loop emits ids `cid, cid+1, ...`. -/
theorem chunksOfSections_ids (dt : String) (maxT ov : Nat) :
    ∀ (secs : List Sectn) (cid : Nat) (cs : List Chunk) (cid' : Nat),
      chunksOfSections dt maxT ov secs cid = some (cs, cid') →
      cs.map Chunk.chunk_id = List.range' cid cs.length ∧
        cid' = cid + cs.length := by
  intro secs
  induction secs with
  | nil =>
    intro cid cs cid' h
    cases h
    simp
  | cons sec rest ih =>
    intro cid cs cid' h
    rw [chunksOfSections] at h
    rcases Option.bind_eq_some.mp h with ⟨⟨cs1, cid1⟩, hout1, h3⟩
    rcases Option.bind_eq_some.mp h3 with ⟨⟨cs2, cid2⟩, hout2, heq⟩
    cases heq
    rcases chunksOfBlocks_ids dt sec.heading maxT ov _ cid cs1 cid1 hout1
      with ⟨h1, h2⟩
    rcases ih cid1 cs2 cid2 hout2 with ⟨h3, h4⟩
    constructor
    · rw [List.map_append, h1, h3, h2, List.length_append,
        range'_append_len]
    · simp; omega

/-- A nonempty result of `pyStripChars` certifies the block condition:
stripped blocks kept by the assembler are nonempty. -/
theorem strip_not_empty (b : List Char) (h : ¬(pyStripChars b).isEmpty = true) :
    pyStripChars b ≠ [] := by
  intro hnil
  rw [hnil] at h
  simp at h

/-- Chunk well-formedness under a valid configuration: nonempty content,
and protected start or within the word budget. -/
theorem chunksOfBlocks_inv (dt hd : String) (maxT ov : Nat) (hov : ov < maxT) :
    ∀ (blocks : List (List Char)) (cid : Nat) (cs : List Chunk) (cid' : Nat),
      chunksOfBlocks dt hd maxT ov blocks cid = some (cs, cid') →
      ∀ c ∈ cs, c.content.data ≠ [] ∧
        (isProtectedStart c.content.data = true ∨
          (pySplit c.content).length ≤ maxT) := by
  intro blocks
  induction blocks with
  | nil =>
    intro cid cs cid' h c hc
    cases h
    simp at hc
  | cons b rest ih =>
    intro cid cs cid' h c hc
    rw [chunksOfBlocks] at h
    split at h
    · exact ih cid cs cid' h c hc
    · split at h
      · -- protected block
        rcases Option.bind_eq_some.mp h with ⟨⟨cs1, cid1⟩, hout, heq⟩
        cases heq
        rename_i hne hprot
        rcases List.mem_cons.mp hc with rfl | hc
        · exact ⟨strip_not_empty b hne, Or.inl hprot⟩
        · exact ih (cid + 1) cs1 cid1 hout c hc
      · -- prose block
        rcases Option.bind_eq_some.mp h with ⟨subs, hsubs, h3⟩
        rcases Option.bind_eq_some.mp h3 with ⟨⟨cs1, cid1⟩, hout, heq⟩
        cases heq
        rename_i hne hprot
        rcases List.mem_append.mp hc with hc | hc
        · have hcin := numberChunks_content dt hd subs cid c hc
          rcases split_with_overlap_ok _ maxT ov hov subs hsubs c.content hcin
            with ⟨hlen, hc2⟩
          refine ⟨?_, Or.inr hlen⟩
          rcases hc2 with heqt | hne2
          · rw [heqt]; exact strip_not_empty b hne
          · exact hne2
        · exact ih (cid + subs.length) cs1 cid1 hout c hc

/-- Section-level chunk well-formedness. -/
theorem chunksOfSections_inv (dt : String) (maxT ov : Nat) (hov : ov < maxT) :
    ∀ (secs : List Sectn) (cid : Nat) (cs : List Chunk) (cid' : Nat),
      chunksOfSections dt maxT ov secs cid = some (cs, cid') →
      ∀ c ∈ cs, c.content.data ≠ [] ∧
        (isProtectedStart c.content.data = true ∨
          (pySplit c.content).length ≤ maxT) := by
  intro secs
  induction secs with
  | nil =>
    intro cid cs cid' h c hc
    cases h
    simp at hc
  | cons sec rest ih =>
    intro cid cs cid' h c hc
    rw [chunksOfSections] at h
    rcases Option.bind_eq_some.mp h with ⟨⟨cs1, cid1⟩, hout1, h3⟩
    rcases Option.bind_eq_some.mp h3 with ⟨⟨cs2, cid2⟩, hout2, heq⟩
    cases heq
    rcases List.mem_append.mp hc with hc | hc
    · exact chunksOfBlocks_inv dt sec.heading maxT ov hov _ cid cs1 cid1
        hout1 c hc
    · exact ih cid1 cs2 cid2 hout2 c hc

/-- The block loop always succeeds under a valid configuration. -/
theorem chunksOfBlocks_total (dt hd : String) (maxT ov : Nat) (hov : ov < maxT) :
    ∀ (blocks : List (List Char)) (cid : Nat),
      ∃ r, chunksOfBlocks dt hd maxT ov blocks cid = some r := by
  intro blocks
  induction blocks with
  | nil => intro cid; exact ⟨([], cid), rfl⟩
  | cons b rest ih =>
    intro cid
    by_cases h1 : (pyStripChars b).isEmpty
    · obtain ⟨r, hr⟩ := ih cid
      exact ⟨r, by rw [chunksOfBlocks, if_pos h1]; exact hr⟩
    · by_cases h2 : isProtectedStart (pyStripChars b)
      · obtain ⟨r, hr⟩ := ih (cid + 1)
        refine ⟨(⟨dt, hd, cid, ⟨pyStripChars b⟩⟩ :: r.1, r.2), ?_⟩
        rw [chunksOfBlocks, if_neg h1, if_pos h2, hr]
        rfl
      · obtain ⟨subs, hsubs⟩ :=
          split_with_overlap_total ⟨pyStripChars b⟩ maxT ov hov
        obtain ⟨r, hr⟩ := ih (cid + subs.length)
        refine ⟨(numberChunks dt hd cid subs ++ r.1, r.2), ?_⟩
        rw [chunksOfBlocks, if_neg h1, if_neg h2, hsubs]
        rw [Option.some_bind, hr]
        rfl

/-- The section loop always succeeds under a valid configuration. -/
theorem chunksOfSections_total (dt : String) (maxT ov : Nat) (hov : ov < maxT) :
    ∀ (secs : List Sectn) (cid : Nat),
      ∃ r, chunksOfSections dt maxT ov secs cid = some r := by
  intro secs
  induction secs with
  | nil => intro cid; exact ⟨([], cid), rfl⟩
  | cons sec rest ih =>
    intro cid
    obtain ⟨⟨cs1, cid1⟩, h1⟩ :=
      chunksOfBlocks_total dt sec.heading maxT ov hov (reSplit sec.content.data) cid
    obtain ⟨⟨cs2, cid2⟩, h2⟩ := ih cid1
    refine ⟨(cs1 ++ cs2, cid2), ?_⟩
    rw [chunksOfSections, h1, Option.some_bind, h2]
    rfl

/-- `chunk_markdown` always succeeds under a valid configuration. -/
theorem chunk_markdown_total (md : String) (maxT ov mt : Nat) (hov : ov < maxT) :
    ∃ cs, chunk_markdown md maxT ov mt = some cs := by
  obtain ⟨⟨cs, cid⟩, h⟩ := chunksOfSections_total
    (match titleSearchAux md.data true with
     | some t => pyStrip ⟨t⟩
     | none => "Untitled Document") maxT ov hov
    (merge_sections_below_min_tokens (parse_markdown_sections md) mt) 1
  refine ⟨cs, ?_⟩
  unfold chunk_markdown
  dsimp only
  rw [h]
  rfl

/-- Whitespace-only text contains no heading match. -/
theorem ws_only_no_match :
    ∀ (fuel : Nat) (l : List Char), (∀ c ∈ l, isPySpace c = true) →
      ∀ (pos : Nat) (bol : Bool), findMatchesAux fuel l pos bol = [] := by
  intro fuel
  induction fuel with
  | zero => intro l h pos bol; rw [findMatchesAux]
  | succ m ih =>
    intro l h pos bol
    match l with
    | [] => simp [findMatchesAux]
    | c :: rest =>
      have hc : isPySpace c = true := h c (List.mem_cons_self _ _)
      have hchash : ¬(c = '#') := by
        intro hcc
        rw [hcc] at hc
        simp [isPySpace] at hc
      have hk0 : hmK (c :: rest) = 0 := by
        simp [hmK, List.takeWhile_cons, hchash]
      have hhm : headingMatch (c :: rest) = none := by
        unfold headingMatch
        rw [if_neg (by rw [hk0]; decide)]
      rw [findMatchesAux]
      split
      · rw [hhm]
        exact ih rest (fun c hc => h c (List.mem_cons_of_mem _ hc)) (pos + 1) (c = '\n')
      · exact ih rest (fun c hc => h c (List.mem_cons_of_mem _ hc)) (pos + 1) (c = '\n')

/-- With no heading match the parser returns no section. -/
theorem parse_empty_of_no_match (md : String)
    (h : findMatches md.data = []) :
    parse_markdown_sections md = [] := by
  unfold parse_markdown_sections
  rw [h]
  rfl

/-- With no sections the assembler returns no chunk (and succeeds). -/
theorem chunk_markdown_empty_of_no_match (md : String) (maxT ov mt : Nat)
    (h : findMatches md.data = []) :
    chunk_markdown md maxT ov mt = some [] := by
  unfold chunk_markdown
  dsimp only
  rw [show merge_sections_below_min_tokens (parse_markdown_sections md) mt = []
    from by rw [parse_empty_of_no_match md h]; rfl]
  rfl

/-- A valid windowing configuration produces at least one window. -/
theorem winCount_pos (n maxT ov : Nat) (hov : ov < maxT) (hn : maxT < n) :
    1 ≤ winCount n maxT ov := by
  unfold winCount
  rw [Nat.le_div_iff_mul_le (by omega)]
  omega

/-! ## Claim theorems -/

set_option maxRecDepth 200000 in
/-- C1 counterexample: on `[A(10 words), B(5 words), C(300 words)]` with
`min_tokens = 50` the merger returns ONE section (headed
`"A + B + C"`), not the two sections claimed: the freshly merged
`A + B` record is re-examined when the index walk reaches it, is still
below `min_tokens`, and is folded into `C` in the same pass. -/
theorem C1_counterexample :
    merge_sections_below_min_tokens [c1A, c1B, c1C] 50 =
      [⟨"A + B + C", 2,
        c1A.content ++ "\n\n" ++ c1B.content ++ "\n\n" ++ c1C.content⟩] ∧
    ¬(merge_sections_below_min_tokens [c1A, c1B, c1C] 50).length = 2 := by
  have h : merge_sections_below_min_tokens [c1A, c1B, c1C] 50 =
      [⟨"A + B + C", 2,
        c1A.content ++ "\n\n" ++ c1B.content ++ "\n\n" ++ c1C.content⟩] := by
    decide
  exact ⟨h, by rw [h]; decide⟩

set_option maxRecDepth 200000 in
/-- C1 amended: the merger is a single forward pass over indices, but a
freshly merged successor IS re-examined when the pass reaches it, so runs
of short sections cascade; consequently every output section except
possibly the last has at least `min_tokens` words, and on the
`[A(10), B(5), C(300)]` example with `min_tokens = 50` the pass returns
exactly one section, headed `"A + B + C"`, whose content is
`A.content ∥ B.content ∥ C.content` joined by blank lines. -/
theorem C1_amended :
    (∀ (secs : List Sectn) (mt : Nat),
      ∀ s ∈ (merge_sections_below_min_tokens secs mt).dropLast,
        mt ≤ (pySplit s.content).length) ∧
    merge_sections_below_min_tokens [c1A, c1B, c1C] 50 =
      [⟨"A + B + C", 2,
        c1A.content ++ "\n\n" ++ c1B.content ++ "\n\n" ++ c1C.content⟩] :=
  ⟨fun secs mt => merge_dropLast_ge secs mt, by decide⟩

/-- C1 amended witness: a concrete non-last merged-output section meets
the threshold. -/
theorem C1_amended_witness :
    2 ≤ (pySplit (Sectn.content ⟨"A", 2, "x y"⟩)).length :=
  C1_amended.1 [⟨"A", 2, "x y"⟩, ⟨"B", 2, "z"⟩] 2 ⟨"A", 2, "x y"⟩ (by decide)

/-- C2: the code has no guard for `overlap ≥ max_tokens`.  On the three
word text `"a b c"` with `max_tokens = 2`, `overlap = 2`, the window
start stays at `0` forever: no amount of fuel finishes the loop, and the
modelled call reports the divergence (`none`); the claim's required
behaviour (reject before the loop) is absent from the code. -/
theorem C2_infinite_loop :
    (∀ (fuel : Nat) (acc : List String),
      splitLoop ["a", "b", "c"] 2 2 fuel 0 acc = none) ∧
    split_with_overlap "a b c" 2 2 = none := by
  constructor
  · intro fuel
    induction fuel with
    | zero => intro acc; rfl
    | succ m ih =>
      intro acc
      rw [splitLoop]
      norm_num
      exact ih _
  · rfl

/-- C5: the Sliding-Window Splitter contract.  A text of at most
`max_tokens` words is returned unchanged as a singleton.  Otherwise, with
`overlap < max_tokens`, the result is exactly one window per index
`k < ceil((W - overlap)/(max_tokens - overlap))`, the window at `k` being
the `max_tokens` words (fewer for the last window) starting at word
`k * (max_tokens - overlap)`, re-joined with single spaces; and the final
window reaches the last word. -/
theorem C5_sliding_window_contract (text : String) (maxT ov : Nat) :
    ((pySplit text).length ≤ maxT →
      split_with_overlap text maxT ov = some [text]) ∧
    (maxT < (pySplit text).length → ov < maxT →
      split_with_overlap text maxT ov =
        some ((List.range (winCount (pySplit text).length maxT ov)).map
          (fun k => pyJoin " "
            (((pySplit text).drop (k * (maxT - ov))).take maxT))) ∧
      (pySplit text).length ≤
        maxT + (winCount (pySplit text).length maxT ov - 1) * (maxT - ov)) := by
  constructor
  · intro hn
    unfold split_with_overlap
    rw [if_pos hn]
  · intro hn hov
    exact ⟨split_with_overlap_closed text maxT ov hn hov,
      winCount_last (pySplit text).length maxT ov hov hn⟩

/-- C5 witness: both regimes at concrete inputs. -/
theorem C5_sliding_window_contract_witness :
    split_with_overlap "a b" 5 1 = some ["a b"] ∧
    split_with_overlap "a b c d e" 2 1 = some ["a b", "b c", "c d", "d e"] := by
  constructor
  · exact (C5_sliding_window_contract "a b" 5 1).1 (by decide)
  · have h := ((C5_sliding_window_contract "a b c d e" 2 1).2
      (by decide) (by decide)).1
    rw [h]
    rfl

/-- C7: concatenating the first window's words with every later window's
words beyond the first `overlap` reconstructs the text's word sequence. -/
theorem C7_overlap_reconstruct (text : String) (maxT ov : Nat)
    (chunks : List String) (c0 : String) (cs : List String)
    (hn : maxT < (pySplit text).length) (hov : ov < maxT)
    (hsp : split_with_overlap text maxT ov = some chunks)
    (hcons : chunks = c0 :: cs) :
    pySplit c0 ++ (cs.map (fun c => (pySplit c).drop ov)).flatten
      = pySplit text := by
  rw [split_with_overlap_closed text maxT ov hn hov] at hsp
  cases hsp
  obtain ⟨p, hp⟩ : ∃ p, winCount (pySplit text).length maxT ov = p + 1 :=
    ⟨winCount (pySplit text).length maxT ov - 1,
      by have := winCount_pos (pySplit text).length maxT ov hov hn; omega⟩
  rw [hp, range_succ_map] at hcons
  injection hcons with hc0 hcs
  subst hc0
  subst hcs
  have hround0 : pySplit (pyJoin " "
      (((pySplit text).drop (0 * (maxT - ov))).take maxT))
      = ((pySplit text).drop (0 * (maxT - ov))).take maxT :=
    pySplit_pyJoin _ (slice_wordOk text _ _)
  rw [hround0]
  have hmapeq : (List.map (fun c => (pySplit c).drop ov)
        ((List.range p).map (fun k => pyJoin " "
          (((pySplit text).drop ((k + 1) * (maxT - ov))).take maxT))))
      = (List.range p).map (fun k =>
          (((pySplit text).drop ((k + 1) * (maxT - ov))).take maxT).drop ov) := by
    rw [List.map_map]
    apply List.map_congr_left
    intro k hk
    simp only [Function.comp_apply]
    rw [pySplit_pyJoin _ (slice_wordOk text _ _)]
  rw [hmapeq]
  have hrec := split_reconstruct text maxT ov hov hn p (by omega)
  rw [Nat.zero_mul, List.drop_zero] at hround0 ⊢
  rw [hrec]
  apply List.take_of_length_le
  have hlast := winCount_last (pySplit text).length maxT ov hov hn
  rw [hp] at hlast
  simpa using hlast

/-- C7 witness: reconstruction at a concrete input. -/
theorem C7_overlap_reconstruct_witness :
    pySplit "a b" ++
      ((["b c", "c d", "d e"].map (fun c => (pySplit c).drop 1)).flatten)
      = pySplit "a b c d e" :=
  C7_overlap_reconstruct "a b c d e" 2 1 ["a b", "b c", "c d", "d e"]
    "a b" ["b c", "c d", "d e"] (by decide) (by decide)
    (by rfl) (by rfl)

/-- C6: the chunk ids of any successful `chunk_markdown` call are exactly
`1..N` in emission order, the counter being shared across sections. -/
theorem C6_chunk_ids (md : String) (maxT ov mt : Nat) (cs : List Chunk)
    (h : chunk_markdown md maxT ov mt = some cs) :
    cs.map Chunk.chunk_id = List.range' 1 cs.length := by
  unfold chunk_markdown at h
  dsimp only at h
  rcases Option.map_eq_some'.mp h with ⟨⟨cs1, cid1⟩, h1, h2⟩
  cases h2
  exact (chunksOfSections_ids _ maxT ov _ 1 cs1 cid1 h1).1

set_option maxRecDepth 40000 in
/-- C6 witness: ids at a concrete document. -/
theorem C6_chunk_ids_witness :
    List.map Chunk.chunk_id
        [⟨"A", "A", 1, "hello my"⟩, ⟨"A", "A", 2, "my old"⟩,
         ⟨"A", "A", 3, "old friend"⟩]
      = List.range' 1 3 :=
  C6_chunk_ids "## A\nhello my old friend" 2 1 0
    [⟨"A", "A", 1, "hello my"⟩, ⟨"A", "A", 2, "my old"⟩,
     ⟨"A", "A", 3, "old friend"⟩] (by rfl)

/-- C8: every emitted chunk has nonempty content, and every chunk is
either protected (its stripped content starts with a fence, pipe, hyphen
or asterisk — in particular every protected-block chunk) or holds at most
`max_tokens` whitespace words (in particular every prose-window chunk). -/
theorem C8_chunk_invariants (md : String) (maxT ov mt : Nat)
    (cs : List Chunk) (hov : ov < maxT)
    (h : chunk_markdown md maxT ov mt = some cs) :
    ∀ c ∈ cs, ¬(c.content = "") ∧
      (isProtectedStart c.content.data = true ∨
        (pySplit c.content).length ≤ maxT) := by
  unfold chunk_markdown at h
  dsimp only at h
  rcases Option.map_eq_some'.mp h with ⟨⟨cs1, cid1⟩, h1, h2⟩
  cases h2
  intro c hc
  rcases chunksOfSections_inv _ maxT ov hov _ 1 cs1 cid1 h1 c hc with ⟨hne, hdisj⟩
  refine ⟨?_, hdisj⟩
  intro hemp
  rw [hemp] at hne
  exact hne rfl

set_option maxRecDepth 40000 in
/-- C8 witness: invariants at a concrete document with a protected table
and windowed prose. -/
theorem C8_chunk_invariants_witness :
    ¬(Chunk.content ⟨"T", "T", 3, "|a|b|\n|c|d|"⟩ = "") ∧
      (isProtectedStart (Chunk.content ⟨"T", "T", 3, "|a|b|\n|c|d|"⟩).data = true ∨
        (pySplit (Chunk.content ⟨"T", "T", 3, "|a|b|\n|c|d|"⟩)).length ≤ 2) :=
  C8_chunk_invariants "## T\nsome prose here\n|a|b|\n|c|d|\nmore prose after"
    2 1 50
    [⟨"T", "T", 1, "some prose"⟩, ⟨"T", "T", 2, "prose here"⟩,
     ⟨"T", "T", 3, "|a|b|\n|c|d|"⟩, ⟨"T", "T", 4, "more prose"⟩,
     ⟨"T", "T", 5, "prose after"⟩]
    (by decide) (by rfl) ⟨"T", "T", 3, "|a|b|\n|c|d|"⟩ (by decide)

/-- C9: with a valid configuration the engine is total — it returns a
chunk sequence for every input string — and degenerate inputs (whitespace
only, or no level-2..6 heading match) give the empty section list and the
empty chunk sequence rather than an error. -/
theorem C9_degenerate_total (md : String) (maxT ov mt : Nat)
    (hov : ov < maxT) :
    (∃ cs, chunk_markdown md maxT ov mt = some cs) ∧
    (((∀ c ∈ md.data, isPySpace c = true) ∨ findMatches md.data = []) →
      parse_markdown_sections md = [] ∧
        chunk_markdown md maxT ov mt = some []) := by
  refine ⟨chunk_markdown_total md maxT ov mt hov, ?_⟩
  intro hdeg
  have hnm : findMatches md.data = [] := by
    rcases hdeg with hws | hnm
    · exact ws_only_no_match md.data.length md.data hws 0 true
    · exact hnm
  exact ⟨parse_empty_of_no_match md hnm,
    chunk_markdown_empty_of_no_match md maxT ov mt hnm⟩

/-- C9 witness: the whitespace-only document yields no section and no
chunk. -/
theorem C9_degenerate_total_witness :
    parse_markdown_sections "  \n " = [] ∧
      chunk_markdown "  \n " 2 1 50 = some [] :=
  (C9_degenerate_total "  \n " 2 1 50 (by decide)).2 (Or.inl (by decide))

/-! ## Equivalence of the two pipeline copies (C10) -/

/-- The two window loops coincide. -/
theorem recSplitLoop_eq (words : List String) (maxT ov : Nat) :
    ∀ (fuel : Nat) (start : Int) (acc : List String),
      ChunkingUtils.recSplitLoop words maxT ov fuel start acc
        = splitLoop words maxT ov fuel start acc := by
  intro fuel
  induction fuel with
  | zero => intro start acc; rfl
  | succ m ih =>
    intro start acc
    simp only [ChunkingUtils.recSplitLoop, splitLoop, ih]

/-- `recursive_split` and `split_with_overlap` coincide. -/
theorem recursive_split_eq (t : String) (maxT ov : Nat) :
    ChunkingUtils.recursive_split t maxT ov = split_with_overlap t maxT ov := by
  unfold ChunkingUtils.recursive_split split_with_overlap
  simp only [recSplitLoop_eq]

/-- The two parsers coincide. -/
theorem parse_eq (md : String) :
    ChunkingUtils.parse_markdown_sections md = parse_markdown_sections md := rfl

/-- The two merge walks coincide. -/
theorem mergeLoopU_eq :
    ∀ (fuel : Nat) (secs : List Sectn) (mt : Nat),
      ChunkingUtils.mergeLoopU fuel secs mt = mergeLoop fuel secs mt := by
  intro fuel
  induction fuel with
  | zero => intro secs mt; rfl
  | succ m ih =>
    intro secs mt
    match secs with
    | [] => rfl
    | [sec] => rfl
    | sec :: next :: rest =>
      rw [ChunkingUtils.mergeLoopU, mergeLoop]
      split
      · exact ih _ mt
      · rw [ih _ mt]

/-- The two short-section mergers coincide. -/
theorem merge_eq (secs : List Sectn) (mt : Nat) :
    ChunkingUtils.merge_short_sections secs mt
      = merge_sections_below_min_tokens secs mt :=
  mergeLoopU_eq secs.length secs mt

/-- The two block loops coincide. -/
theorem chunksOfBlocksU_eq (dt hd : String) (maxT ov : Nat) :
    ∀ (blocks : List (List Char)) (cid : Nat),
      ChunkingUtils.chunksOfBlocks dt hd maxT ov blocks cid
        = chunksOfBlocks dt hd maxT ov blocks cid := by
  intro blocks
  induction blocks with
  | nil => intro cid; rfl
  | cons b rest ih =>
    intro cid
    rw [ChunkingUtils.chunksOfBlocks, chunksOfBlocks]
    simp only [recursive_split_eq, ih]

/-- The two section loops coincide. -/
theorem chunksOfSectionsU_eq (dt : String) (maxT ov : Nat) :
    ∀ (secs : List Sectn) (cid : Nat),
      ChunkingUtils.chunksOfSections dt maxT ov secs cid
        = chunksOfSections dt maxT ov secs cid := by
  intro secs
  induction secs with
  | nil => intro cid; rfl
  | cons sec rest ih =>
    intro cid
    rw [ChunkingUtils.chunksOfSections, chunksOfSections]
    simp only [chunksOfBlocksU_eq, ih]

/-- C10: the pipeline of `src/chunking_utils.py` is extensionally equal to
the pipeline of `src/chunking/chunking.py`: `recursive_split` equals
`split_with_overlap`, the two `parse_markdown_sections` are equal,
`merge_short_sections` equals `merge_sections_below_min_tokens`, and the
two `chunk_markdown` functions agree on every markdown string and every
configuration. -/
theorem C10_duplicate_equivalence :
    (∀ (t : String) (maxT ov : Nat),
      ChunkingUtils.recursive_split t maxT ov = split_with_overlap t maxT ov) ∧
    (∀ md : String,
      ChunkingUtils.parse_markdown_sections md = parse_markdown_sections md) ∧
    (∀ (secs : List Sectn) (mt : Nat),
      ChunkingUtils.merge_short_sections secs mt
        = merge_sections_below_min_tokens secs mt) ∧
    (∀ (md : String) (maxT ov mt : Nat),
      ChunkingUtils.chunk_markdown md maxT ov mt
        = chunk_markdown md maxT ov mt) := by
  refine ⟨recursive_split_eq, parse_eq, merge_eq, ?_⟩
  intro md maxT ov mt
  unfold ChunkingUtils.chunk_markdown chunk_markdown
  simp only [chunksOfSectionsU_eq, merge_eq, parse_eq]

/-! ## Tiling of the document by heading matches and gaps (C3) -/

/-- The hash run fits in the suffix. -/
theorem hmK_le (l : List Char) : hmK l ≤ l.length :=
  List.Sublist.length_le (List.takeWhile_sublist _)

/-- The whitespace run fits after the hashes. -/
theorem hmWs_le (l : List Char) : (hmWs l).length ≤ l.length - hmK l := by
  have h := List.Sublist.length_le
    (List.takeWhile_sublist (l := l.drop (hmK l)) isPySpace)
  rw [List.length_drop] at h
  exact h

/-- The heading text fits after hashes and whitespace. -/
theorem hmTxt_le (l : List Char) :
    (hmTxt l).length ≤ l.length - hmK l - (hmWs l).length := by
  have h := List.Sublist.length_le
    (List.takeWhile_sublist (l := (l.drop (hmK l)).drop (hmWs l).length)
      (fun c => decide (c ≠ '\n')))
  rw [List.length_drop, List.length_drop] at h
  exact h

/-- A heading match consumes between three characters and the whole
suffix. -/
theorem headingMatch_len (l : List Char) (k len : Nat) (txt : List Char)
    (h : headingMatch l = some (k, len, txt)) :
    3 ≤ len ∧ len ≤ l.length := by
  unfold headingMatch at h
  split at h
  · rename_i hk
    split at h
    · exact absurd h (by simp)
    · rename_i hws
      rcases h with ⟨⟩
      have h1 := hmK_le l
      have h2 := hmWs_le l
      have h3 := hmTxt_le l
      omega
  · exact absurd h (by simp)

/-- Chain weakening in the start position. -/
theorem Chained_mono (pos' pos bnd : Nat) (ms : List HeadMatch)
    (hle : pos' ≤ pos) (h : Chained pos bnd ms) : Chained pos' bnd ms := by
  cases ms with
  | nil => trivial
  | cons m rest =>
    rcases h with ⟨h1, h2, h3, h4⟩
    exact ⟨le_trans hle h1, h2, h3, h4⟩

/-- Chain weakening in the bound. -/
theorem Chained_bnd_mono (bnd bnd' : Nat) (hle : bnd ≤ bnd') :
    ∀ (ms : List HeadMatch) (pos : Nat),
      Chained pos bnd ms → Chained pos bnd' ms := by
  intro ms
  induction ms with
  | nil => intro pos h; trivial
  | cons m rest ih =>
    intro pos h
    rcases h with ⟨h1, h2, h3, h4⟩
    exact ⟨h1, h2, by omega, ih _ h4⟩

/-- The match list produced by the scan is chained within the scanned
suffix. -/
theorem findMatchesAux_chain :
    ∀ (fuel : Nat) (l : List Char) (pos : Nat) (bol : Bool),
      Chained pos (pos + l.length) (findMatchesAux fuel l pos bol) := by
  intro fuel
  induction fuel with
  | zero => intro l pos bol; rw [findMatchesAux]; trivial
  | succ f ih =>
    intro l pos bol
    match l with
    | [] => simp [findMatchesAux, Chained]
    | c :: rest =>
      rw [findMatchesAux]
      split
      · cases hhm : headingMatch (c :: rest) with
        | none =>
          have := ih rest (pos + 1) (c = '\n')
          refine Chained_mono pos (pos + 1) _ _ (by omega) ?_
          have heq : pos + 1 + rest.length = pos + (c :: rest).length := by
            simp only [List.length_cons]
            omega
          rw [heq] at this
          exact this
        | some v =>
          rcases v with ⟨k, len, txt⟩
          rcases headingMatch_len (c :: rest) k len txt hhm with ⟨hge, hle⟩
          refine ⟨le_refl _, ?_, ?_, ?_⟩
          · show pos < pos + len
            omega
          · show pos + len ≤ pos + (c :: rest).length
            simp at hle ⊢
            omega
          · show Chained (pos + len) (pos + (c :: rest).length)
              (findMatchesAux f (rest.drop (len - 1)) (pos + len) false)
            exact Chained_bnd_mono _ _
              (by simp [List.length_drop] at hle ⊢; omega) _ _
              (ih (rest.drop (len - 1)) (pos + len) false)
      · have := ih rest (pos + 1) (c = '\n')
        refine Chained_mono pos (pos + 1) _ _ (by omega) ?_
        have heq : pos + 1 + rest.length = pos + (c :: rest).length := by
          simp only [List.length_cons]
          omega
        rw [heq] at this
        exact this

/-- A tiling that starts past a leading character commutes with `cons`. -/
theorem tileFrom_cons (c : Char) (l : List Char) (pos : Nat)
    (ms : List HeadMatch)
    (hms : ∀ m1 ms1, ms = m1 :: ms1 → pos + 1 ≤ m1.mstart ∧ m1.mstart < m1.mend) :
    tileFrom (c :: l) pos ms = c :: tileFrom l (pos + 1) ms := by
  cases ms with
  | nil => rfl
  | cons m rest =>
    rcases hms m rest rfl with ⟨h1, h2⟩
    obtain ⟨a, ha⟩ : ∃ a, m.mstart - pos = a + 1 := ⟨m.mstart - pos - 1, by omega⟩
    obtain ⟨b, hb⟩ : ∃ b, m.mend - pos = b + 1 := ⟨m.mend - pos - 1, by omega⟩
    have ha2 : m.mstart - (pos + 1) = a := by omega
    have hb2 : m.mend - (pos + 1) = b := by omega
    rw [tileFrom, tileFrom, ha, hb, ha2, hb2, List.take_succ_cons,
      List.drop_succ_cons, List.drop_succ_cons]
    rfl

/-- The scanned suffix is reassembled exactly from its preamble, match
spans and gaps. -/
theorem findMatchesAux_tile :
    ∀ (fuel : Nat) (l : List Char) (pos : Nat) (bol : Bool),
      l = tileFrom l pos (findMatchesAux fuel l pos bol) := by
  intro fuel
  induction fuel with
  | zero => intro l pos bol; rw [findMatchesAux]; rfl
  | succ f ih =>
    intro l pos bol
    match l with
    | [] =>
      rw [show findMatchesAux (f + 1) [] pos bol = [] from by
        simp [findMatchesAux]]
      rfl
    | c :: rest =>
      rw [findMatchesAux]
      split
      · cases hhm : headingMatch (c :: rest) with
        | none =>
          rw [tileFrom_cons c rest pos
            (findMatchesAux f rest (pos + 1) (c = '\n')) (by
              intro m1 ms1 heq
              have hch := findMatchesAux_chain f rest (pos + 1) (c = '\n')
              rw [heq] at hch
              exact ⟨hch.1, hch.2.1⟩)]
          exact congrArg (List.cons c) (ih rest (pos + 1) (c = '\n'))
        | some v =>
          rcases v with ⟨k, len, txt⟩
          rcases headingMatch_len (c :: rest) k len txt hhm with ⟨hge, -⟩
          show c :: rest
            = (c :: rest).take (pos - pos) ++
              ((c :: rest).drop (pos - pos)).take (pos + len - pos) ++
              tileFrom ((c :: rest).drop (pos + len - pos)) (pos + len)
                (findMatchesAux f (rest.drop (len - 1)) (pos + len) false)
          have e1 : pos - pos = 0 := Nat.sub_self pos
          have e2 : pos + len - pos = len := by omega
          rw [e1, e2, List.take_zero, List.drop_zero, List.nil_append]
          have hdrop : (c :: rest).drop len = rest.drop (len - 1) := by
            obtain ⟨len1, rfl⟩ : ∃ len1, len = len1 + 1 := ⟨len - 1, by omega⟩
            rw [List.drop_succ_cons, Nat.add_sub_cancel]
          rw [hdrop, ← ih (rest.drop (len - 1)) (pos + len) false, ← hdrop]
          exact (List.take_append_drop len (c :: rest)).symm
      · rw [tileFrom_cons c rest pos
          (findMatchesAux f rest (pos + 1) (c = '\n')) (by
            intro m1 ms1 heq
            have hch := findMatchesAux_chain f rest (pos + 1) (c = '\n')
            rw [heq] at hch
            exact ⟨hch.1, hch.2.1⟩)]
        exact congrArg (List.cons c) (ih rest (pos + 1) (c = '\n'))

/-- The section contents are exactly the whitespace-stripped gaps between
consecutive heading matches. -/
theorem sectionsOf_contents (chars : List Char) :
    ∀ (ms : List HeadMatch) (pos : Nat), Chained pos chars.length ms →
      (sectionsOf chars ms).map Sectn.content
        = (gapsFrom (chars.drop pos) pos ms).map
            (fun g => (⟨pyStripChars g⟩ : String)) := by
  intro ms
  induction ms with
  | nil => intro pos h; rfl
  | cons m rest ih =>
    intro pos h
    rcases h with ⟨h1, h2, h3, h4⟩
    simp only [sectionsOf, gapsFrom, List.map_cons]
    have hdd : (chars.drop pos).drop (m.mend - pos) = chars.drop m.mend := by
      rw [List.drop_drop]
      congr 1
      omega
    congr 1
    · cases rest with
      | nil =>
        show (⟨pyStripChars ((chars.drop m.mend).take (chars.length - m.mend))⟩
            : String) = ⟨pyStripChars ((chars.drop pos).drop (m.mend - pos))⟩
        rw [hdd]
        congr 2
        apply List.take_of_length_le
        rw [List.length_drop]
      | cons m2 rest2 =>
        show (⟨pyStripChars ((chars.drop m.mend).take (m2.mstart - m.mend))⟩
            : String)
          = ⟨pyStripChars (((chars.drop pos).drop (m.mend - pos)).take
              (m2.mstart - m.mend))⟩
        rw [hdd]
    · rw [hdd]
      exact ih m.mend h4

set_option maxRecDepth 20000 in
/-- C3 counterexample: in `"pre\n## H\nbody"` the letter `'p'` is document
text outside every heading line and is not whitespace, yet the only
section content is `"body"`, which does not contain it: the text before
the first heading is dropped, so concatenating the contents cannot
reproduce the document body with heading lines removed. -/
theorem C3_counterexample :
    (parse_markdown_sections "pre\n## H\nbody").map Sectn.content = ["body"] ∧
    'p' ∈ "pre\n## H\nbody".data ∧ isPySpace 'p' = false ∧
    'p' ∉ ("body" : String).data := by
  refine ⟨by decide, by decide, by decide, by decide⟩

/-- C3 amended: the round trip holds from the first heading onward.  The
document splits exactly, with no gaps or overlaps, into the preamble
(text before the first heading match, which the parser DROPS), the
heading-match spans, and the gaps between consecutive matches; and the
section contents are precisely those gaps, each whitespace-stripped.  So
concatenating the contents reproduces the document body after the first
heading with the heading matches removed, up to per-section trimming —
but text before the first heading is lost. -/
theorem C3_roundtrip_amended (md : String) :
    md.data = tileFrom md.data 0 (findMatches md.data) ∧
    (parse_markdown_sections md).map Sectn.content
      = (gapsFrom md.data 0 (findMatches md.data)).map
          (fun g => (⟨pyStripChars g⟩ : String)) := by
  constructor
  · exact findMatchesAux_tile md.data.length md.data 0 true
  · have hch := findMatchesAux_chain md.data.length md.data 0 true
    have hres := sectionsOf_contents md.data (findMatches md.data) 0
      (by simpa using hch)
    simpa using hres

/-! ## Protected-block preservation (C4) -/

/-- Hash-free text contains no heading match. -/
theorem noHash_no_match :
    ∀ (fuel : Nat) (l : List Char), (∀ c ∈ l, ¬(c = '#')) →
      ∀ (pos : Nat) (bol : Bool), findMatchesAux fuel l pos bol = [] := by
  intro fuel
  induction fuel with
  | zero => intro l h pos bol; rw [findMatchesAux]
  | succ m ih =>
    intro l h pos bol
    match l with
    | [] => simp [findMatchesAux]
    | c :: rest =>
      have hchash : ¬(c = '#') := h c (List.mem_cons_self _ _)
      have hk0 : hmK (c :: rest) = 0 := by
        simp [hmK, List.takeWhile_cons, hchash]
      have hhm : headingMatch (c :: rest) = none := by
        unfold headingMatch
        rw [if_neg (by rw [hk0]; decide)]
      rw [findMatchesAux]
      split
      · rw [hhm]
        exact ih rest (fun c hc => h c (List.mem_cons_of_mem _ hc)) (pos + 1) (c = '\n')
      · exact ih rest (fun c hc => h c (List.mem_cons_of_mem _ hc)) (pos + 1) (c = '\n')

/-- The first triple backtick of `I ++ ``` ++ P` with backtick-free `I`
and `P` is right after `I`. -/
theorem fenceIdx_first (P : List Char) (hP : ∀ c ∈ P, proseSafe c = true) :
    ∀ (I : List Char), (∀ c ∈ I, ¬(c = '`')) →
      fenceIdx (I ++ '`' :: '`' :: '`' :: P) = some I.length := by
  intro I
  induction I with
  | nil =>
    intro
    rw [List.nil_append, fenceIdx]
    rw [if_pos (by simp)]
    rfl
  | cons a I ih =>
    intro h
    have ha : ¬(a = '`') := h a (List.mem_cons_self _ _)
    rw [List.cons_append, fenceIdx]
    rw [if_neg (by
      intro hcon
      have : (a :: (I ++ '`' :: '`' :: '`' :: P)).take 3
          = a :: (I ++ '`' :: '`' :: '`' :: P).take 2 := rfl
      rw [this] at hcon
      rcases List.cons_eq_cons.mp hcon with ⟨ha2, -⟩
      exact ha ha2)]
    rw [ih (fun c hc => h c (List.mem_cons_of_mem _ hc))]
    simp

/-- The fence alternative fires on a fence followed by safe text, and
matches exactly the fence span. -/
theorem fenceMatch_fence (I P : List Char) (hI : ∀ c ∈ I, ¬(c = '`'))
    (hP : ∀ c ∈ P, proseSafe c = true) :
    fenceMatch (('`' :: '`' :: '`' :: (I ++ ['`', '`', '`'])) ++ P)
      = some (6 + I.length) := by
  unfold fenceMatch
  rw [if_pos (by simp)]
  have hre : (('`' :: '`' :: '`' :: (I ++ ['`', '`', '`'])) ++ P).drop 3
      = I ++ '`' :: '`' :: '`' :: P := by
    simp
  rw [hre, fenceIdx_first P hP I hI]
  rfl

/-- No block alternative fires on a suffix whose first character is
prose-safe and whose second character is not a list marker. -/
theorem tryMatch_safe_none (c : Char) (l : List Char)
    (hc : proseSafe c = true)
    (hl : ∀ m ml, l = m :: ml → ¬(m = '-') ∧ ¬(m = '*')) :
    tryMatch (c :: l) = none := by
  have hc2 := hc
  unfold proseSafe at hc2
  simp only [Bool.not_eq_true', Bool.or_eq_false_iff,
    decide_eq_false_iff_not] at hc2
  obtain ⟨⟨⟨⟨h1, h2⟩, h3⟩, h4⟩, h5⟩ := hc2
  have hfence : fenceMatch (c :: l) = none := by
    unfold fenceMatch
    rw [if_neg ?_]
    intro hcon
    have ht : (c :: l).take 3 = c :: l.take 2 := rfl
    rw [ht] at hcon
    exact h1 (List.cons_eq_cons.mp hcon).1
  have htable : tableBranch (c :: l) = none := by
    unfold tableBranch
    split
    · rename_i heq
      exact absurd (List.cons_eq_cons.mp heq).1 h2
    · rfl
  have hlist : listBranch (c :: l) = none := by
    unfold listBranch
    split
    · rename_i m c2 rest heq
      rcases List.cons_eq_cons.mp heq with ⟨hcn, hl2⟩
      rcases hl m (c2 :: rest) hl2 with ⟨hm1, hm2⟩
      rw [if_neg (by simp [hm1, hm2])]
    · rfl
  unfold tryMatch
  rw [hfence, htable, hlist]
  rfl

/-- Unpacking `proseSafe`. -/
theorem proseSafe_spec (c : Char) (h : proseSafe c = true) :
    ¬(c = '`') ∧ ¬(c = '|') ∧ ¬(c = '-') ∧ ¬(c = '*') ∧ ¬(c = '#') := by
  unfold proseSafe at h
  simp only [Bool.not_eq_true', Bool.or_eq_false_iff,
    decide_eq_false_iff_not] at h
  obtain ⟨⟨⟨⟨h1, h2⟩, h3⟩, h4⟩, h5⟩ := h
  exact ⟨h1, h2, h3, h4, h5⟩

/-- The scan of an exhausted or empty suffix emits the pending gap. -/
theorem reSplitAux_nil (fuel : Nat) (buf : List Char) :
    reSplitAux fuel [] buf = [buf.reverse] := by
  cases fuel <;> rfl

/-- One scan step over a position where an alternative fires. -/
theorem reSplitAux_match_step (fuel : Nat) (c : Char) (rest buf : List Char)
    (len : Nat) (h : tryMatch (c :: rest) = some len) :
    reSplitAux (fuel + 1) (c :: rest) buf
      = buf.reverse :: (c :: rest).take len ::
          reSplitAux fuel (rest.drop (len - 1)) [] := by
  rw [reSplitAux, h]

/-- One scan step over a position where no alternative fires. -/
theorem reSplitAux_skip_step (fuel : Nat) (c : Char) (rest buf : List Char)
    (h : tryMatch (c :: rest) = none) :
    reSplitAux (fuel + 1) (c :: rest) buf = reSplitAux fuel rest (c :: buf) := by
  rw [reSplitAux, h]

/-- The scan walks over a prose-safe prefix, accumulating it into the
pending gap, provided the following suffix does not begin with a list
marker. -/
theorem reSplitAux_prose (l : List Char)
    (hl : ∀ m ml, l = m :: ml → ¬(m = '-') ∧ ¬(m = '*')) :
    ∀ (P : List Char) (fuel : Nat) (buf : List Char),
      (P ++ l).length ≤ fuel → (∀ c ∈ P, proseSafe c = true) →
      reSplitAux fuel (P ++ l) buf
        = reSplitAux (fuel - P.length) l (P.reverse ++ buf) := by
  intro P
  induction P with
  | nil => intro fuel buf hf hs; simp
  | cons a P ih =>
    intro fuel buf hf hs
    obtain ⟨f1, rfl⟩ : ∃ f1, fuel = f1 + 1 :=
      ⟨fuel - 1, by simp at hf; omega⟩
    rw [List.cons_append]
    rw [reSplitAux_skip_step f1 a (P ++ l) buf ?hnone]
    case hnone =>
      apply tryMatch_safe_none a (P ++ l) (hs a (List.mem_cons_self _ _))
      intro m ml heq
      cases P with
      | nil =>
        rw [List.nil_append] at heq
        exact hl m ml heq
      | cons p P2 =>
        rw [List.cons_append] at heq
        rcases List.cons_eq_cons.mp heq with ⟨hmp, -⟩
        rw [← hmp]
        have hsp := proseSafe_spec p (hs p (by simp))
        exact ⟨hsp.2.2.1, hsp.2.2.2.1⟩
    rw [ih f1 (a :: buf) (by simp at hf ⊢; omega)
      (fun c hc => hs c (List.mem_cons_of_mem _ hc))]
    have hfuel : f1 + 1 - (a :: P).length = f1 - P.length := by
      simp
    rw [hfuel]
    congr 1
    simp

/-- `re.split` of `prose ++ fence ++ prose` with hygienic prose and a
backtick-free fence interior is exactly the three pieces. -/
theorem reSplit_three (P1 I P2 : List Char)
    (h1 : ∀ c ∈ P1, proseSafe c = true)
    (hI : ∀ c ∈ I, ¬(c = '`'))
    (h2 : ∀ c ∈ P2, proseSafe c = true) :
    reSplit (P1 ++ ('`' :: '`' :: '`' :: (I ++ ['`', '`', '`'])) ++ P2)
      = [P1, '`' :: '`' :: '`' :: (I ++ ['`', '`', '`']), P2] := by
  have hFlen : ('`' :: '`' :: '`' :: (I ++ ['`', '`', '`'])).length
      = 6 + I.length := by simp; omega
  have htm : tryMatch (('`' :: '`' :: '`' :: (I ++ ['`', '`', '`'])) ++ P2)
      = some (6 + I.length) := by
    unfold tryMatch
    rw [fenceMatch_fence I P2 hI h2]
    rfl
  unfold reSplit
  rw [List.append_assoc]
  rw [reSplitAux_prose (('`' :: '`' :: '`' :: (I ++ ['`', '`', '`'])) ++ P2)
    (by
      intro m ml heq
      rcases List.cons_eq_cons.mp heq with ⟨hm, -⟩
      rw [← hm]
      exact ⟨by decide, by decide⟩)
    P1 _ [] (by simp) h1]
  obtain ⟨f3, hf3⟩ : ∃ f3,
      (P1 ++ (('`' :: '`' :: '`' :: (I ++ ['`', '`', '`'])) ++ P2)).length
        - P1.length = f3 + 1 :=
    ⟨(P1 ++ (('`' :: '`' :: '`' :: (I ++ ['`', '`', '`'])) ++ P2)).length
      - P1.length - 1,
      by simp only [List.length_append, List.length_cons, List.length_nil]; omega⟩
  have hf3' : f3 + 1 = 6 + I.length + P2.length := by
    rw [← hf3]
    simp only [List.length_append, List.length_cons, List.length_nil]
    omega
  rw [hf3]
  have hstep := reSplitAux_match_step f3 '`'
    (('`' :: '`' :: (I ++ ['`', '`', '`'])) ++ P2)
    (P1.reverse ++ []) (6 + I.length) (by exact htm)
  refine Eq.trans (by exact hstep) ?_
  show ((P1.reverse ++ []).reverse) ::
      ((('`' :: '`' :: '`' :: (I ++ ['`', '`', '`'])) ++ P2).take (6 + I.length)) ::
      reSplitAux f3 ((('`' :: '`' :: (I ++ ['`', '`', '`'])) ++ P2).drop
        (6 + I.length - 1)) []
    = [P1, '`' :: '`' :: '`' :: (I ++ ['`', '`', '`']), P2]
  rw [List.append_nil, List.reverse_reverse]
  have hdrop : (('`' :: '`' :: (I ++ ['`', '`', '`'])) ++ P2).drop
      (6 + I.length - 1) = P2 := by
    have h5 : ('`' :: '`' :: (I ++ ['`', '`', '`'])).length = 6 + I.length - 1 := by
      simp
      omega
    rw [← h5, List.drop_left]
  have hfin := reSplitAux_prose [] (by intro m ml heq; cases heq)
    P2 f3 [] (by simp; omega) h2
  rw [List.append_nil] at hfin
  have hfin2 : reSplitAux f3 P2 [] = [P2] := by
    rw [hfin, reSplitAux_nil]
    simp
  rw [hdrop, hfin2, ← hFlen, List.take_left]

/-- A list whose head fails the predicate is untouched by `dropWhile`. -/
theorem dropWhile_eq_self_of_head {p : Char → Bool} (l : List Char)
    (h : ∀ c, l.head? = some c → p c = false) : l.dropWhile p = l := by
  cases l with
  | nil => rfl
  | cons a l =>
    rw [List.dropWhile_cons, h a rfl]
    simp

/-- Stripping keeps only characters of the original list. -/
theorem pyStripChars_subset (l : List Char) :
    ∀ c ∈ pyStripChars l, c ∈ l := by
  intro c hc
  unfold pyStripChars at hc
  rw [List.mem_reverse] at hc
  have h1 := (List.dropWhile_sublist (l :=
    (l.dropWhile isPySpace).reverse) isPySpace).mem hc
  rw [List.mem_reverse] at h1
  exact (List.dropWhile_sublist isPySpace).mem h1

/-- A list with non-whitespace first and last characters strips to
itself. -/
theorem pyStripChars_id (l : List Char)
    (hhead : ∀ c, l.head? = some c → isPySpace c = false)
    (hlast : ∀ c, l.getLast? = some c → isPySpace c = false) :
    pyStripChars l = l := by
  unfold pyStripChars
  rw [dropWhile_eq_self_of_head l hhead]
  rw [dropWhile_eq_self_of_head l.reverse (by
    intro c hc
    rw [List.head?_reverse] at hc
    exact hlast c hc)]
  exact List.reverse_reverse l

/-- Every character of a single-space join is a space or a character of
one of the words. -/
theorem pyJoin_chars (ws : List String) :
    ∀ c ∈ (pyJoin " " ws).data, c = ' ' ∨ ∃ w ∈ ws, c ∈ w.data := by
  induction ws with
  | nil => intro c hc; simp [pyJoin] at hc
  | cons w ws ih =>
    intro c hc
    cases hws : ws with
    | nil =>
      rw [hws] at hc
      exact Or.inr ⟨w, List.mem_cons_self _ _, hc⟩
    | cons w2 ws2 =>
      rw [hws] at hc ih
      have hc2 : c ∈ (w ++ " " ++ pyJoin " " (w2 :: ws2)).data := hc
      rw [String.data_append, String.data_append] at hc2
      rcases List.mem_append.mp hc2 with h | h
      · rcases List.mem_append.mp h with h | h
        · exact Or.inr ⟨w, List.mem_cons_self _ _, h⟩
        · left
          simpa using h
      · rcases ih c h with h | ⟨w3, hw3, hcw3⟩
        · exact Or.inl h
        · exact Or.inr ⟨w3, List.mem_cons_of_mem _ hw3, hcw3⟩

/-- Every character of every chunk of a successful windowing call is a
space or a character of the input text. -/
theorem split_subs_chars (bs : List Char) (maxT ov : Nat) (hov : ov < maxT)
    (subs : List String)
    (h : split_with_overlap ⟨bs⟩ maxT ov = some subs) :
    ∀ s ∈ subs, ∀ c ∈ s.data, c = ' ' ∨ c ∈ bs := by
  by_cases hn : (pySplit ⟨bs⟩).length ≤ maxT
  · unfold split_with_overlap at h
    rw [if_pos hn] at h
    cases h
    intro s hs c hc
    rcases List.mem_singleton.mp hs with rfl
    exact Or.inr hc
  · push_neg at hn
    rw [split_with_overlap_closed _ maxT ov hn hov] at h
    cases h
    intro s hs c hc
    rcases List.mem_map.mp hs with ⟨k, -, rfl⟩
    rcases pyJoin_chars _ c hc with h | ⟨w, hw, hcw⟩
    · exact Or.inl h
    · refine Or.inr ?_
      have hw2 : w ∈ pySplit ⟨bs⟩ :=
        List.mem_of_mem_drop (List.mem_of_mem_take hw)
      exact pySplit_chars ⟨bs⟩ w hw2 c hcw

/-- Stripping ignores a leading whitespace character. -/
theorem pyStripChars_cons_space (c : Char) (h : isPySpace c = true)
    (l : List Char) : pyStripChars (c :: l) = pyStripChars l := by
  unfold pyStripChars
  rw [List.dropWhile_cons, h]
  simp

/-- The heading regex matches the document `## H\n<content>` at offset 0
with match length 4 and group 2 `H`. -/
theorem headingMatch_HH (content : List Char) :
    headingMatch ('#' :: '#' :: ' ' :: 'H' :: '\n' :: content)
      = some (2, 4, ['H']) := by
  have hk : hmK ('#' :: '#' :: ' ' :: 'H' :: '\n' :: content) = 2 := by
    simp [hmK, List.takeWhile_cons]
  have hws : hmWs ('#' :: '#' :: ' ' :: 'H' :: '\n' :: content) = [' '] := by
    simp [hmWs, hk, List.takeWhile_cons, isPySpace]
  have htxt : hmTxt ('#' :: '#' :: ' ' :: 'H' :: '\n' :: content) = ['H'] := by
    simp [hmTxt, hk, hws, List.takeWhile_cons]
  unfold headingMatch
  rw [if_pos (by rw [hk]; exact ⟨by decide, by decide⟩)]
  rw [if_neg (by rw [hws]; decide)]
  rw [hk, hws, htxt]
  rfl

/-- The match scan over `## H\n<content>` with hash-free content finds
exactly the one heading match. -/
theorem findMatchesAux_HH (content : List Char)
    (hc : ∀ c ∈ content, ¬(c = '#')) (fuel : Nat) (hf : 1 ≤ fuel) :
    findMatchesAux (fuel + 1) ('#' :: '#' :: ' ' :: 'H' :: '\n' :: content)
        0 true = [⟨0, 4, 2, ['H']⟩] := by
  rw [findMatchesAux]
  rw [if_pos rfl]
  rw [headingMatch_HH content]
  obtain ⟨f2, rfl⟩ : ∃ f2, fuel = f2 + 1 := ⟨fuel - 1, by omega⟩
  show ({ mstart := 0, mend := 0 + 4, level := 2, txt := ['H'] } : HeadMatch) ::
      findMatchesAux (f2 + 1) ('\n' :: content) (0 + 4) false
    = [⟨0, 4, 2, ['H']⟩]
  rw [findMatchesAux]
  rw [if_neg (by decide)]
  rw [noHash_no_match f2 content hc (0 + 4 + 1) _]

/-- All heading matches of `## H\n<content>` with hash-free content. -/
theorem findMatches_HH (content : List Char)
    (hc : ∀ c ∈ content, ¬(c = '#')) :
    findMatches ('#' :: '#' :: ' ' :: 'H' :: '\n' :: content)
      = [⟨0, 4, 2, ['H']⟩] := by
  unfold findMatches
  have hlen : ('#' :: '#' :: ' ' :: 'H' :: '\n' :: content).length
      = (content.length + 4) + 1 := by
    simp [List.length_cons]
  rw [hlen]
  exact findMatchesAux_HH content hc (content.length + 4) (by omega)

/-- Parsing `## H\n<content>` with hash-free content yields the single
section `H` with the stripped content. -/
theorem parse_markdown_sections_HH (content : List Char)
    (hc : ∀ c ∈ content, ¬(c = '#')) :
    parse_markdown_sections ⟨'#' :: '#' :: ' ' :: 'H' :: '\n' :: content⟩
      = [⟨"H", 2, ⟨pyStripChars content⟩⟩] := by
  unfold parse_markdown_sections
  show sectionsOf ('#' :: '#' :: ' ' :: 'H' :: '\n' :: content)
      (findMatches ('#' :: '#' :: ' ' :: 'H' :: '\n' :: content)) = _
  rw [findMatches_HH content hc]
  rw [sectionsOf, sectionsOf]
  have hdrop : ('#' :: '#' :: ' ' :: 'H' :: '\n' :: content).drop 4
      = '\n' :: content := rfl
  have htake : (('\n' :: content).take
      (('#' :: '#' :: ' ' :: 'H' :: '\n' :: content).length - 4))
      = '\n' :: content := by
    apply List.take_of_length_le
    simp [List.length_cons]
  simp only [hdrop, htake]
  rw [pyStripChars_cons_space '\n' (by decide) content]
  have hH : (⟨pyStripChars ['H']⟩ : String) = "H" := by decide
  rw [hH]

/-- A one-section list is returned unchanged by the merger. -/
theorem merge_singleton (s : Sectn) (mt : Nat) :
    merge_sections_below_min_tokens [s] mt = [s] := rfl

/-- The title search on `## H\n<content>` returns group 1 `H`. -/
theorem titleSearchAux_HH (content : List Char) :
    titleSearchAux ('#' :: '#' :: ' ' :: 'H' :: '\n' :: content) true
      = some ['H'] := by
  rw [titleSearchAux]
  rw [if_pos rfl]
  have hta : titleAt ('#' :: '#' :: ' ' :: 'H' :: '\n' :: content)
      = some ['H'] := by
    unfold titleAt
    simp [List.takeWhile_cons, isPySpace]
  rw [hta]

/-- A nonempty all-prose-safe block does not look protected. -/
theorem isProtectedStart_false_of_safe (l : List Char) (hne : l ≠ [])
    (hsafe : ∀ c ∈ l, proseSafe c = true) : isProtectedStart l = false := by
  cases l with
  | nil => exact absurd rfl hne
  | cons c t =>
    rcases proseSafe_spec c (hsafe c (List.mem_cons_self _ _)) with
      ⟨hb, hp, hd, ha, -⟩
    unfold isProtectedStart
    rw [Bool.or_eq_false_iff]
    constructor
    · have ht : (c :: t).take 3 = c :: t.take 2 := rfl
      rw [ht]
      apply decide_eq_false
      intro hcon
      exact hb (List.cons_eq_cons.mp hcon).1
    · simp [hb, hp, hd, ha]

/-- Windowed prose chunks never reproduce a string containing a
backtick. -/
theorem numberChunks_filter_safe (dt hd : String) (target : String)
    (htarget : '`' ∈ target.data) (bs : List Char)
    (hsafe : ∀ c ∈ bs, proseSafe c = true) (maxT ov : Nat) (hov : ov < maxT)
    (subs : List String)
    (hsubs : split_with_overlap ⟨bs⟩ maxT ov = some subs) :
    ∀ cid, (numberChunks dt hd cid subs).filter
      (fun c => c.content = target) = [] := by
  have hne : ∀ s ∈ subs, ¬(s = target) := by
    intro s hs hcon
    have hchar := split_subs_chars bs maxT ov hov subs hsubs s hs '`'
      (by rw [hcon]; exact htarget)
    rcases hchar with h | h
    · exact absurd h (by decide)
    · have := hsafe '`' h
      exact absurd this (by decide)
  clear hsubs
  induction subs with
  | nil => intro cid; rfl
  | cons s ss ih =>
    intro cid
    rw [numberChunks]
    rw [List.filter_cons_of_neg]
    · exact ih (fun s2 hs2 => hne s2 (List.mem_cons_of_mem _ hs2)) (cid + 1)
    · show ¬(decide (s = target) = true)
      rw [decide_eq_false (hne s (List.mem_cons_self _ _))]
      exact Bool.false_ne_true

/-- One prose-block step of the block loop: the block contributes some
prefix of chunks, none of which matches a backtick-bearing target, and
the loop continues on the remaining blocks with some counter. -/
theorem chunksOfBlocks_prose_step (dt hd : String) (maxT ov : Nat)
    (hov : ov < maxT) (P : List Char)
    (hsafe : ∀ c ∈ P, proseSafe c = true) (rest : List (List Char))
    (cid : Nat) (target : String) (htarget : '`' ∈ target.data) :
    ∃ pre cid2, chunksOfBlocks dt hd maxT ov (P :: rest) cid
        = (chunksOfBlocks dt hd maxT ov rest cid2).map
            (fun r => (pre ++ r.1, r.2))
      ∧ pre.filter (fun c => c.content = target) = [] := by
  have hsub : ∀ c ∈ pyStripChars P, proseSafe c = true :=
    fun c hc => hsafe c (pyStripChars_subset P c hc)
  rw [chunksOfBlocks]
  by_cases hbs : (pyStripChars P).isEmpty
  · refine ⟨[], cid, ?_, rfl⟩
    rw [if_pos hbs]
    cases h : chunksOfBlocks dt hd maxT ov rest cid with
    | none => rfl
    | some r => simp
  · rw [if_neg hbs]
    have hne : pyStripChars P ≠ [] := by
      intro hcon
      rw [hcon] at hbs
      exact hbs rfl
    rw [isProtectedStart_false_of_safe (pyStripChars P) hne hsub]
    rw [if_neg (by decide : ¬(false = true))]
    obtain ⟨subs, hsubs⟩ :=
      split_with_overlap_total ⟨pyStripChars P⟩ maxT ov hov
    refine ⟨numberChunks dt hd cid subs, cid + subs.length, ?_,
      numberChunks_filter_safe dt hd target htarget (pyStripChars P)
        hsub maxT ov hov subs hsubs cid⟩
    rw [hsubs]
    show (chunksOfBlocks dt hd maxT ov rest (cid + subs.length)).bind _ = _
    cases chunksOfBlocks dt hd maxT ov rest (cid + subs.length) with
    | none => rfl
    | some r => rfl

/-- One protected-block step of the block loop: the block is emitted
verbatim as one chunk and the counter advances by one. -/
theorem chunksOfBlocks_protected_step (dt hd : String) (maxT ov : Nat)
    (b : List Char) (hstrip : pyStripChars b = b)
    (hprot : isProtectedStart b = true) (hne : b.isEmpty = false)
    (rest : List (List Char)) (cid : Nat) :
    chunksOfBlocks dt hd maxT ov (b :: rest) cid
      = (chunksOfBlocks dt hd maxT ov rest (cid + 1)).map
          (fun r => (⟨dt, hd, cid, ⟨b⟩⟩ :: r.1, r.2)) := by
  rw [chunksOfBlocks]
  rw [hstrip, hne, hprot]
  show (chunksOfBlocks dt hd maxT ov rest (cid + 1)).bind _ = _
  cases chunksOfBlocks dt hd maxT ov rest (cid + 1) with
  | none => rfl
  | some r => rfl

/-- `dropWhile` over an append whose second part starts with a failing
character only eats into the first part. -/
theorem dropWhile_append_stop (p : Char → Bool) :
    ∀ (l1 l2 : List Char) (c : Char), l2.head? = some c → p c = false →
      (l1 ++ l2).dropWhile p = l1.dropWhile p ++ l2 := by
  intro l1
  induction l1 with
  | nil =>
    intro l2 c hc hpc
    rw [List.nil_append, List.dropWhile_nil, List.nil_append]
    apply dropWhile_eq_self_of_head
    intro c2 hc2
    rw [hc] at hc2
    cases hc2
    exact hpc
  | cons a l1 ih =>
    intro l2 c hc hpc
    rw [List.cons_append, List.dropWhile_cons, List.dropWhile_cons]
    by_cases hpa : p a = true
    · rw [hpa]
      simp only [if_true]
      exact ih l2 c hc hpc
    · rw [Bool.not_eq_true] at hpa
      rw [hpa]
      simp

/-- The reversal of a backtick fence is again a backtick fence. -/
theorem fence_reverse (I : List Char) :
    ('`' :: '`' :: '`' :: (I ++ ['`', '`', '`'])).reverse
      = '`' :: '`' :: '`' :: (I.reverse ++ ['`', '`', '`']) := by
  simp

/-- Stripping prose-fence-prose only trims the outer prose: the result is
again prose-fence-prose, with the new prose parts made of characters of
the old ones. -/
theorem pyStrip_three (P1 I P2 : List Char) :
    ∃ Q1 Q2, pyStripChars (P1 ++ ('`' :: '`' :: '`' :: (I ++ ['`', '`', '`'])) ++ P2)
        = Q1 ++ ('`' :: '`' :: '`' :: (I ++ ['`', '`', '`'])) ++ Q2
      ∧ (∀ c ∈ Q1, c ∈ P1) ∧ (∀ c ∈ Q2, c ∈ P2) := by
  refine ⟨P1.dropWhile isPySpace, (P2.reverse.dropWhile isPySpace).reverse,
    ?_, ?_, ?_⟩
  · unfold pyStripChars
    rw [List.append_assoc]
    rw [dropWhile_append_stop isPySpace P1
      (('`' :: '`' :: '`' :: (I ++ ['`', '`', '`'])) ++ P2) '`' rfl (by decide)]
    have hrev : (P1.dropWhile isPySpace ++
        (('`' :: '`' :: '`' :: (I ++ ['`', '`', '`'])) ++ P2)).reverse
        = P2.reverse ++ (('`' :: '`' :: '`' :: (I.reverse ++ ['`', '`', '`']))
            ++ (P1.dropWhile isPySpace).reverse) := by
      rw [List.reverse_append, List.reverse_append, fence_reverse]
      rw [List.append_assoc]
    rw [hrev]
    rw [dropWhile_append_stop isPySpace P2.reverse
      (('`' :: '`' :: '`' :: (I.reverse ++ ['`', '`', '`']))
        ++ (P1.dropWhile isPySpace).reverse) '`' rfl (by decide)]
    rw [List.reverse_append, List.reverse_append, List.reverse_reverse,
      fence_reverse, List.reverse_reverse, List.append_assoc]
  · intro c hc
    exact (List.dropWhile_sublist isPySpace).mem hc
  · intro c hc
    rw [List.mem_reverse] at hc
    have := (List.dropWhile_sublist isPySpace).mem hc
    rw [List.mem_reverse] at this
    exact this

/-- The fence block strips to itself. -/
theorem pyStrip_fence (I : List Char) :
    pyStripChars ('`' :: '`' :: '`' :: (I ++ ['`', '`', '`']))
      = '`' :: '`' :: '`' :: (I ++ ['`', '`', '`']) := by
  apply pyStripChars_id
  · intro c hc
    cases hc
    decide
  · intro c hc
    rw [← List.head?_reverse, fence_reverse] at hc
    cases hc
    decide

/-- Running the block loop on prose-fence-prose (hygienic prose,
backtick-free interior) produces exactly one chunk whose content is the
fence. -/
theorem chunksOfBlocks_fence_one (dt hd : String) (maxT ov : Nat)
    (hov : ov < maxT) (P1 I P2 : List Char)
    (h1 : ∀ c ∈ P1, proseSafe c = true)
    (hI : ∀ c ∈ I, ¬(c = '`'))
    (h2 : ∀ c ∈ P2, proseSafe c = true)
    (cid : Nat) (cs : List Chunk) (cid' : Nat)
    (h : chunksOfBlocks dt hd maxT ov
        [P1, '`' :: '`' :: '`' :: (I ++ ['`', '`', '`']), P2] cid
      = some (cs, cid')) :
    (cs.filter (fun c => c.content
      = (⟨'`' :: '`' :: '`' :: (I ++ ['`', '`', '`'])⟩ : String))).length = 1 := by
  have htarget : '`' ∈
      ((⟨'`' :: '`' :: '`' :: (I ++ ['`', '`', '`'])⟩ : String)).data :=
    List.mem_cons_self _ _
  obtain ⟨pre1, cid2, heq1, hfil1⟩ := chunksOfBlocks_prose_step dt hd maxT ov
    hov P1 h1 ['`' :: '`' :: '`' :: (I ++ ['`', '`', '`']), P2] cid
    ⟨'`' :: '`' :: '`' :: (I ++ ['`', '`', '`'])⟩ htarget
  rw [heq1] at h
  rw [chunksOfBlocks_protected_step dt hd maxT ov
    ('`' :: '`' :: '`' :: (I ++ ['`', '`', '`'])) (pyStrip_fence I) rfl rfl
    [P2] cid2] at h
  obtain ⟨pre2, cid3, heq2, hfil2⟩ := chunksOfBlocks_prose_step dt hd maxT ov
    hov P2 h2 [] (cid2 + 1)
    ⟨'`' :: '`' :: '`' :: (I ++ ['`', '`', '`'])⟩ htarget
  rw [heq2] at h
  rw [show chunksOfBlocks dt hd maxT ov [] cid3 = some ([], cid3) from rfl] at h
  simp only [Option.map_some', Option.some.injEq, Prod.mk.injEq] at h
  obtain ⟨hcs, -⟩ := h
  rw [← hcs]
  rw [List.filter_append, hfil1, List.nil_append]
  rw [List.filter_cons_of_pos (by
    show decide ((⟨'`' :: '`' :: '`' :: (I ++ ['`', '`', '`'])⟩ : String) = _) = true
    exact decide_eq_true rfl)]
  rw [List.append_nil, hfil2]
  rfl

/-- Every character of the fence block is a backtick or an interior
character. -/
theorem mem_fence (I : List Char) :
    ∀ c ∈ '`' :: '`' :: '`' :: (I ++ ['`', '`', '`']), c = '`' ∨ c ∈ I := by
  intro c hc
  simp only [List.mem_cons, List.mem_append, List.mem_singleton] at hc
  tauto

/-- Pipeline form of the fence-preservation property: chunking the
document `## H\n<P1><fence><P2>` with hygienic prose and a backtick-free,
hash-free fence interior yields exactly one chunk whose content is the
fence. -/
theorem chunk_markdown_fence_one (P1 I P2 : List Char) (maxT ov mt : Nat)
    (cs : List Chunk) (hov : ov < maxT)
    (h1 : ∀ c ∈ P1, proseSafe c = true)
    (hI : ∀ c ∈ I, ¬(c = '`'))
    (hIh : ∀ c ∈ I, ¬(c = '#'))
    (h2 : ∀ c ∈ P2, proseSafe c = true)
    (h : chunk_markdown ⟨'#' :: '#' :: ' ' :: 'H' :: '\n' ::
          (P1 ++ ('`' :: '`' :: '`' :: (I ++ ['`', '`', '`'])) ++ P2)⟩
        maxT ov mt = some cs) :
    (cs.filter (fun c => c.content
      = (⟨'`' :: '`' :: '`' :: (I ++ ['`', '`', '`'])⟩ : String))).length = 1 := by
  have hnohash : ∀ c ∈ P1 ++ ('`' :: '`' :: '`' :: (I ++ ['`', '`', '`'])) ++ P2,
      ¬(c = '#') := by
    intro c hc
    rcases List.mem_append.mp hc with hc1 | hc2
    · rcases List.mem_append.mp hc1 with hcp | hcf
      · exact (proseSafe_spec c (h1 c hcp)).2.2.2.2
      · rcases mem_fence I c hcf with rfl | hcI
        · decide
        · exact hIh c hcI
    · exact (proseSafe_spec c (h2 c hc2)).2.2.2.2
  unfold chunk_markdown at h
  dsimp only at h
  rw [titleSearchAux_HH] at h
  rw [parse_markdown_sections_HH _ hnohash] at h
  rw [merge_singleton] at h
  dsimp only at h
  have hT : pyStrip ⟨['H']⟩ = "H" := by decide
  rw [hT, chunksOfSections] at h
  dsimp only at h
  obtain ⟨Q1, Q2, hQ, hQ1, hQ2⟩ := pyStrip_three P1 I P2
  rw [hQ] at h
  rw [reSplit_three Q1 I Q2 (fun c hc => h1 c (hQ1 c hc)) hI
    (fun c hc => h2 c (hQ2 c hc))] at h
  cases hcb : chunksOfBlocks "H" "H" maxT ov
      [Q1, '`' :: '`' :: '`' :: (I ++ ['`', '`', '`']), Q2] 1 with
  | none =>
    rw [hcb] at h
    simp at h
  | some r1 =>
    obtain ⟨cs1, cid1⟩ := r1
    rw [hcb] at h
    have h3 : some (cs1 ++ []) = some cs := h
    rw [List.append_nil] at h3
    rw [← Option.some.inj h3]
    exact chunksOfBlocks_fence_one "H" "H" maxT ov hov Q1 I Q2
      (fun c hc => h1 c (hQ1 c hc)) hI (fun c hc => h2 c (hQ2 c hc))
      1 cs1 cid1 hcb

set_option maxRecDepth 200000 in
/-- C4: refuted as stated.  In the document
`"## T\nintro\n- item\n```a b```"` a fenced code block is embedded in
section content, but the list alternative of the block-splitting regex
absorbs everything from the list line to the end of the content, so the
fence surfaces inside the chunk `"- item\n```a b```"` and NO chunk has
the fence as its content: the fenced block does not appear as the
content of exactly one chunk. -/
theorem C4_counterexample :
    chunk_markdown "## T\nintro\n- item\n```a b```" 200 50 50
      = some [⟨"T", "T", 1, "intro"⟩, ⟨"T", "T", 2, "- item\n```a b```"⟩]
    ∧ (([⟨"T", "T", 1, "intro"⟩, ⟨"T", "T", 2, "- item\n```a b```"⟩] :
        List Chunk).filter (fun c => c.content = "```a b```")).length = 0 :=
  ⟨by decide, by decide⟩

set_option maxRecDepth 200000 in
/-- C4 (amended): protected blocks surrounded by plain prose are never
fragmented.  (1) In a document `## H` followed by
`<prose1><fence><prose2>`, where the two prose parts contain no backtick,
pipe, hyphen, asterisk or hash and the fence interior contains no
backtick and no hash, every successful `chunk_markdown` run emits the
fenced block verbatim as the content of EXACTLY one chunk, regardless of
its internal word count and of `max_tokens`/`overlap`/`min_tokens`.
(2) The pipe table `"|a|b|\n|c|d|"` surrounded by prose, with
`max_tokens = 2` and `overlap = 1` (so the prose is windowed), appears
as exactly one chunk while the prose around it is split. -/
theorem C4_protected_amended :
    (∀ (P1 I P2 : List Char) (maxT ov mt : Nat) (cs : List Chunk),
      ov < maxT →
      (∀ c ∈ P1, proseSafe c = true) →
      (∀ c ∈ I, ¬(c = '`')) →
      (∀ c ∈ I, ¬(c = '#')) →
      (∀ c ∈ P2, proseSafe c = true) →
      chunk_markdown ⟨'#' :: '#' :: ' ' :: 'H' :: '\n' ::
          (P1 ++ ('`' :: '`' :: '`' :: (I ++ ['`', '`', '`'])) ++ P2)⟩
        maxT ov mt = some cs →
      (cs.filter (fun c => c.content
        = (⟨'`' :: '`' :: '`' :: (I ++ ['`', '`', '`'])⟩ : String))).length = 1)
    ∧ chunk_markdown "## T\nsome prose here\n|a|b|\n|c|d|\nmore prose after"
        2 1 50
      = some [⟨"T", "T", 1, "some prose"⟩, ⟨"T", "T", 2, "prose here"⟩,
          ⟨"T", "T", 3, "|a|b|\n|c|d|"⟩, ⟨"T", "T", 4, "more prose"⟩,
          ⟨"T", "T", 5, "prose after"⟩]
    ∧ (([⟨"T", "T", 1, "some prose"⟩, ⟨"T", "T", 2, "prose here"⟩,
          ⟨"T", "T", 3, "|a|b|\n|c|d|"⟩, ⟨"T", "T", 4, "more prose"⟩,
          ⟨"T", "T", 5, "prose after"⟩] : List Chunk).filter
        (fun c => c.content = "|a|b|\n|c|d|")).length = 1 :=
  ⟨fun P1 I P2 maxT ov mt cs hov h1 hI hIh h2 h =>
      chunk_markdown_fence_one P1 I P2 maxT ov mt cs hov h1 hI hIh h2 h,
    by decide, by decide⟩

set_option maxRecDepth 200000 in
/-- Witness for the amended C4: the document
`"## H\nbefore text\n```a b\nc d```\nafter text"` (fence of four words)
chunked with `max_tokens = 200`, `overlap = 50`, `min_tokens = 50`
produces three chunks, of which exactly one has the fence as content. -/
theorem C4_protected_amended_witness :
    (([⟨"H", "H", 1, "before text"⟩, ⟨"H", "H", 2, "```a b\nc d```"⟩,
        ⟨"H", "H", 3, "after text"⟩] : List Chunk).filter
      (fun c => c.content
        = (⟨'`' :: '`' :: '`' :: ("a b\nc d".data ++ ['`', '`', '`'])⟩ :
            String))).length = 1 :=
  C4_protected_amended.1 "before text\n".data "a b\nc d".data
    "\nafter text".data 200 50 50
    [⟨"H", "H", 1, "before text"⟩, ⟨"H", "H", 2, "```a b\nc d```"⟩,
      ⟨"H", "H", 3, "after text"⟩]
    (by decide) (by decide) (by decide) (by decide) (by decide) (by decide)
